import Mathlib

/-!
# CRC-64 (Jones polynomial, the Redis variant): `crc64.go`

A shallow embedding of `src/crc64.go`.  Unsigned 64-bit values (`uint64`) and
bytes (`uint8`, `byte`) are natural numbers; a shift to the left that can drop
bits is followed by an explicit `% 2 ^ 64` (or `% 256` for `uint8`).  A byte
slice is a `List Nat` whose elements are below 256, and the fixed-size arrays
`[8]crc64.Table` (`Table = [256]uint64`) are `Array (Array Nat)`.
Methods of `*digest` are state passing: each returns its result together with
the digest after the call.
-/

namespace crc64

/-! ## makeTable -/

/-- The constant `poly` of `makeTable`. -/
def poly : Nat := 0xad93d23594c935a9

/-- One iteration of the loop over the bits `j` of `c` in `makeTable`
(lines 28-35): `bit` is the top bit of `v`, flipped when `c&j != 0`; then
`v <<= 1` and `v ^= poly` when `bit`. -/
def bitStep (c j v : Nat) : Nat :=
  let bit : Bool := v &&& 0x8000000000000000 != 0
  let bit : Bool := if c &&& j != 0 then !bit else bit
  let v := (v <<< 1) % 2 ^ 64
  if bit then v ^^^ poly else v

/-- The loop `for j := uint8(0x01); j&0xff != 0; j <<= 1` of `makeTable`,
entered with loop variable `j` and register `v`.  It terminates because the
`uint8` shift moves `j` towards 0: `256 / gcd (j % 256) 256` decreases. -/
def bitLoop (c j v : Nat) : Nat :=
  if j &&& 0xff ≠ 0 then bitLoop c ((j <<< 1) % 256) (bitStep c j v) else v
termination_by 256 / Nat.gcd (j % 256) 256
decreasing_by
  rename_i h
  have key : ∀ r < 256, r ≠ 0 →
      256 / Nat.gcd ((2 * r) % 256) 256 < 256 / Nat.gcd r 256 := by decide!
  have hand : j &&& 0xff = j % 256 := Nat.and_pow_two_sub_one_eq_mod j 8
  have hshift : ((j <<< 1) % 256) % 256 = (2 * (j % 256)) % 256 := by
    rw [Nat.shiftLeft_eq]; omega
  rw [hshift]
  exact key (j % 256) (Nat.mod_lt _ (by decide)) (by rw [← hand]; exact h)

/-- One iteration of the loop `for j := 1; j < 64; j++` of `makeTable` on the
pair `(v, vv)`: `v >>= 1; vv = (vv << 1) | (v & 0x01)`. -/
def revStep (s : Nat × Nat) : Nat × Nat :=
  let v := s.1 >>> 1
  (v, ((s.2 <<< 1) % 2 ^ 64) ||| (v &&& 0x01))

/-- The function `revStep` run `n` times. -/
def revLoop : Nat → Nat × Nat → Nat × Nat
  | 0, s => s
  | n + 1, s => revLoop n (revStep s)

/-- The value stored in `table[0][i]` by the body of the first loop of
`makeTable` (lines 25-43); the loop over `j = 1 .. 63` runs 63 times. -/
def table0Entry (i : Nat) : Nat :=
  let c := i % 256
  let v := bitLoop c 0x01 0
  let vv := v &&& 0x01
  (revLoop 63 (v, vv)).2 ^^^ 0

/-- The read `t[k][i]`. -/
def get2 (t : Array (Array Nat)) (k i : Nat) : Nat := (t.get! k).get! i

/-- The assignment `t[k][i] = v`. -/
def set2 (t : Array (Array Nat)) (k i v : Nat) : Array (Array Nat) :=
  t.set! k ((t.get! k).set! i v)

/-- The inner loop `for j := 1; j < 8; j++` of the slice-by-8 part of
`makeTable`, with `n` iterations left, loop variable `j`, on the state
`(table, v)`. -/
def sliceRow (i : Nat) : Nat → Nat → Array (Array Nat) × Nat → Array (Array Nat) × Nat
  | 0, _, s => s
  | n + 1, j, (t, v) =>
    let v := get2 t 0 (v &&& 0xff) ^^^ (v >>> 8)
    sliceRow i n (j + 1) (set2 t j i v, v)

/-- The function `makeTable`: `new([8]crc64.Table)` is all zeros, the first
loop fills `table[0]`, the second one `table[1] .. table[7]`. -/
def makeTable : Array (Array Nat) :=
  let table := mkArray 8 (mkArray 256 0)
  let table := (List.range 256).foldl (fun t i => set2 t 0 i (table0Entry i)) table
  (List.range 256).foldl (fun t i => (sliceRow i 7 1 (t, get2 t 0 i)).1) table

/-- The package variable `var table = makeTable()`. -/
def table : Array (Array Nat) := makeTable

/-! ## Checksum -/

/-- The word `uint64(p[0]) | uint64(p[1])<<8 | ... | uint64(p[7])<<56` read
at the head of `p` (lines 59-60). -/
def word8 (p : List Nat) : Nat :=
  p.get! 0 ||| (p.get! 1 <<< 8) ||| (p.get! 2 <<< 16) ||| (p.get! 3 <<< 24) |||
    (p.get! 4 <<< 32) ||| (p.get! 5 <<< 40) ||| (p.get! 6 <<< 48) ||| (p.get! 7 <<< 56)

/-- The combination of the eight tables of lines 61-68. -/
def slice8 (crc : Nat) : Nat :=
  get2 table 7 (crc &&& 0xff) ^^^
    get2 table 6 ((crc >>> 8) &&& 0xff) ^^^
    get2 table 5 ((crc >>> 16) &&& 0xff) ^^^
    get2 table 4 ((crc >>> 24) &&& 0xff) ^^^
    get2 table 3 ((crc >>> 32) &&& 0xff) ^^^
    get2 table 2 ((crc >>> 40) &&& 0xff) ^^^
    get2 table 1 ((crc >>> 48) &&& 0xff) ^^^
    get2 table 0 (crc >>> 56)

/-- The body of the loop `for _, v := range p` (line 72):
`crc = table[0][byte(crc)^v] ^ (crc >> 8)`. -/
def byteStep (crc v : Nat) : Nat :=
  get2 table 0 ((crc % 256) ^^^ v) ^^^ (crc >>> 8)

/-- The function `Checksum`: the loop `for len(p) > 8` consumes 8 bytes per
iteration (`p = p[8:]`), the loop over the rest one byte. -/
def Checksum (crc : Nat) (p : List Nat) : Nat :=
  if p.length > 8 then
    let crc := crc ^^^ word8 p
    let crc := slice8 crc
    Checksum crc (p.drop 8)
  else
    p.foldl byteStep crc
termination_by p.length
decreasing_by simp only [List.length_drop]; omega

/-! ## Definitions used in the proofs -/

/-- The update of the accumulator by one byte that is 0, with `table[0][i]`
taken as `table0Entry i`: `table[0][y&0xff] ^ (y >> 8)`. -/
def shift8 (y : Nat) : Nat :=
  table0Entry (y &&& 0xff) ^^^ (y >>> 8)

/-- The eight iterations `j = 1, 2, 4, ..., 128` of `bitLoop`, written out. -/
def bitLoop8 (c v : Nat) : Nat :=
  bitStep c 128 (bitStep c 64 (bitStep c 32 (bitStep c 16
    (bitStep c 8 (bitStep c 4 (bitStep c 2 (bitStep c 1 v)))))))

/-- The function `table0Entry` with `bitLoop8` for `bitLoop`. -/
def table0Fast (i : Nat) : Nat :=
  let c := i % 256
  let v := bitLoop8 c 0
  let vv := v &&& 0x01
  (revLoop 63 (v, vv)).2 ^^^ 0

/-- The function `shift8` over `table0Fast`. -/
def shift8Fast (y : Nat) : Nat :=
  table0Fast (y &&& 0xff) ^^^ (y >>> 8)

/-- The XOR of the entries `table0Fast (2 ^ i)` over the bits `i < n` set in `a`. -/
def xorBits (a : Nat) : Nat → Nat
  | 0 => 0
  | n + 1 => xorBits a n ^^^ (if a.testBit n then table0Fast (2 ^ n) else 0)

/-- The little-endian value of a byte sequence: `p[0] | p[1]<<8 | ...`. -/
def leWord : List Nat → Nat
  | [] => 0
  | d :: ds => d ||| (leWord ds <<< 8)

/-- A table of the shape `[8][256]uint64`. -/
def TableWF (t : Array (Array Nat)) : Prop :=
  t.size = 8 ∧ ∀ k < 8, (t.get! k).size = 256

/-! ## digest -/

/-- The type `digest`. -/
structure digest where
  crc : Nat
deriving DecidableEq, Repr

/-- The function `New`: `&digest{}`. -/
def New : digest := { crc := 0 }

/-- The method `Write`: the pair `(n, err)` returned (with `err = nil` as
`none`) and the digest after the call. -/
def digest.Write (d : digest) (p : List Nat) : (Nat × Option String) × digest :=
  ((p.length, none), { d with crc := Checksum d.crc p })

/-- The method `Sum64`. -/
def digest.Sum64 (d : digest) : Nat × digest := (d.crc, d)

/-- The method `Sum`: `byte(x)` is `x % 256`. -/
def digest.Sum (d : digest) (inp : List Nat) : List Nat × digest :=
  let r := d.Sum64
  let s := r.1
  (inp ++ [s % 256, (s >>> 8) % 256, (s >>> 16) % 256, (s >>> 24) % 256,
      (s >>> 32) % 256, (s >>> 40) % 256, (s >>> 48) % 256, (s >>> 56) % 256], r.2)

/-- The method `BlockSize`. -/
def digest.BlockSize (d : digest) : Nat × digest := (1, d)

/-- The method `Size`. -/
def digest.Size (d : digest) : Nat × digest := (8, d)

/-- The method `Reset`. -/
def digest.Reset (d : digest) : digest := { d with crc := 0 }

/-- The calls `Write(c1)`, ..., `Write(cn)` in order on the digest `d`: the
digest after the last call. -/
def writeAll (d : digest) (chunks : List (List Nat)) : digest :=
  chunks.foldl (fun d c => (d.Write c).2) d

/-- The cutting of `p` into blocks of 8 bytes (the last one may be shorter),
with `fuel` bounding the number of blocks. -/
def blocksAux : Nat → List Nat → List (List Nat)
  | 0, _ => []
  | fuel + 1, p => if p = [] then [] else p.take 8 :: blocksAux fuel (p.drop 8)

/-- The cutting of `p` into blocks of 8 bytes. -/
def blocks8 (p : List Nat) : List (List Nat) := blocksAux p.length p

/-- A little-endian decoder: byte `i` of the list weighs `2 ^ (8 * i)`. -/
def decodeLE : List Nat → Nat
  | [] => 0
  | b :: bs => b + 256 * decodeLE bs

/-- A call of one of the reading methods of `*digest`. -/
inductive ReadOp where
  | Sum64 : ReadOp
  | Sum (inp : List Nat) : ReadOp
  | BlockSize : ReadOp
  | Size : ReadOp

/-- The digest after one reading call. -/
def ReadOp.run (d : digest) : ReadOp → digest
  | ReadOp.Sum64 => d.Sum64.2
  | ReadOp.Sum inp => (d.Sum inp).2
  | ReadOp.BlockSize => d.BlockSize.2
  | ReadOp.Size => d.Size.2

/-- The digest after a sequence of reading calls. -/
def runReads (d : digest) (ops : List ReadOp) : digest :=
  ops.foldl ReadOp.run d

/-! ## The algorithm in the words of the spec -/

/-- The single-table step in the words of the spec:
`table[0][(accumulator & 0xff) XOR v] XOR (accumulator >> 8)`. -/
def specStep (c v : Nat) : Nat :=
  get2 table 0 ((c &&& 0xff) ^^^ v) ^^^ (c >>> 8)

/-- The 8-table combination in the words of the spec, on the accumulator `x`
already XORed with the word: `table[7][byte0] XOR ... XOR table[0][byte7]`
with `byte_i = (x >> 8i) & 0xff`. -/
def specBlock (x : Nat) : Nat :=
  get2 table 7 ((x >>> 0) &&& 0xff) ^^^
    get2 table 6 ((x >>> 8) &&& 0xff) ^^^
    get2 table 5 ((x >>> 16) &&& 0xff) ^^^
    get2 table 4 ((x >>> 24) &&& 0xff) ^^^
    get2 table 3 ((x >>> 32) &&& 0xff) ^^^
    get2 table 2 ((x >>> 40) &&& 0xff) ^^^
    get2 table 1 ((x >>> 48) &&& 0xff) ^^^
    get2 table 0 ((x >>> 56) &&& 0xff)

/-- The algorithm of the spec (section 4.2): the 8-byte loop runs while at
least 8 bytes remain, the rest is folded byte by byte. -/
def specUpdate (acc : Nat) (data : List Nat) : Nat :=
  if data.length ≥ 8 then
    let word := decodeLE (data.take 8)
    let acc := acc ^^^ word
    specUpdate (specBlock acc) (data.drop 8)
  else
    data.foldl specStep acc
termination_by data.length
decreasing_by simp only [List.length_drop]; omega

/-- The standard reflected table algorithm of the spec on the reversed
polynomial: `r_0 = c` and `r_{i+1} = (r_i >> 1) XOR (0x95ac9329ac4bc9b5 if r_i
is odd, else 0)`; no final reversal. -/
def reflTable (c : Nat) : Nat → Nat
  | 0 => c
  | i + 1 =>
    let r := reflTable c i
    (r >>> 1) ^^^ (if r % 2 = 1 then 0x95ac9329ac4bc9b5 else 0)

/-- The reversal of the low 64 bits restricted to the bits `i < n` of `v`:
bit `i` goes to bit `63 - i`. -/
def revBits (v : Nat) : Nat → Nat
  | 0 => 0
  | n + 1 => revBits v n ||| (if v.testBit n then 2 ^ (63 - n) else 0)

/-- The reversal of all 64 bits of `v`: bit `i` goes to bit `63 - i`. -/
def rev64 (v : Nat) : Nat := revBits v 64

/-- The register `v_k` of the spec's table 0 algorithm (section 4.1, step 2):
`v_0 = 0`, and for the bits `k = 0, 1, ...` of `c`, least significant first,
`bit = (top bit of v_k) XOR (bit k of c)` and
`v_{k+1} = (v_k << 1) XOR (poly if bit, else 0)`. -/
def specBits (c : Nat) : Nat → Nat
  | 0 => 0
  | k + 1 =>
    let v := specBits c k
    let bit : Bool := xor (v.testBit 63) (c.testBit k)
    ((v <<< 1) % 2 ^ 64) ^^^ (if bit then 0xad93d23594c935a9 else 0)

/-- The values of the loop variable `j` at which the body of the loop
`for j := uint8(0x01); j&0xff != 0; j <<= 1` runs, when entered with `j`. -/
def bitLoopJs (j : Nat) : List Nat :=
  if j &&& 0xff ≠ 0 then j :: bitLoopJs ((j <<< 1) % 256) else []
termination_by 256 / Nat.gcd (j % 256) 256
decreasing_by
  rename_i h
  have key : ∀ r < 256, r ≠ 0 →
      256 / Nat.gcd ((2 * r) % 256) 256 < 256 / Nat.gcd r 256 := by decide!
  have hand : j &&& 0xff = j % 256 := Nat.and_pow_two_sub_one_eq_mod j 8
  have hshift : ((j <<< 1) % 256) % 256 = (2 * (j % 256)) % 256 := by
    rw [Nat.shiftLeft_eq]; omega
  rw [hshift]
  exact key (j % 256) (Nat.mod_lt _ (by decide)) (by rw [← hand]; exact h)

/-! ## Checked accesses -/

/-- The read `t[k][i]` with the bounds checks of Go: `none` when `k` or `i` is
out of range. -/
def get2Checked (t : Array (Array Nat)) (k i : Nat) : Option Nat :=
  t[k]?.bind fun row => row[i]?

/-- The assignment `t[k][i] = v` with the bounds checks of Go. -/
def set2Checked (t : Array (Array Nat)) (k i v : Nat) : Option (Array (Array Nat)) :=
  t[k]?.bind fun row => if i < row.size then some (t.set! k (row.set! i v)) else none

/-- The function `sliceRow` with checked accesses `table[0][v&0xff]` and
`table[j][i]`. -/
def sliceRowChecked (i : Nat) :
    Nat → Nat → Array (Array Nat) × Nat → Option (Array (Array Nat) × Nat)
  | 0, _, s => some s
  | n + 1, j, (t, v) =>
    (get2Checked t 0 (v &&& 0xff)).bind fun x =>
      (set2Checked t j i (x ^^^ (v >>> 8))).bind fun t1 =>
        sliceRowChecked i n (j + 1) (t1, x ^^^ (v >>> 8))

/-- The function `makeTable` with every access to the table checked. -/
def makeTableChecked : Option (Array (Array Nat)) :=
  ((List.range 256).foldlM (fun t i => set2Checked t 0 i (table0Entry i))
      (mkArray 8 (mkArray 256 0))).bind fun table =>
    (List.range 256).foldlM
      (fun t i => (get2Checked t 0 i).bind fun v =>
        (sliceRowChecked i 7 1 (t, v)).map Prod.fst)
      table

/-- The function `word8` with the reads `p[0]`, ..., `p[7]` checked. -/
def word8Checked (p : List Nat) : Option Nat :=
  p[0]?.bind fun p0 => p[1]?.bind fun p1 => p[2]?.bind fun p2 => p[3]?.bind fun p3 =>
  p[4]?.bind fun p4 => p[5]?.bind fun p5 => p[6]?.bind fun p6 => p[7]?.bind fun p7 =>
    some (p0 ||| (p1 <<< 8) ||| (p2 <<< 16) ||| (p3 <<< 24) |||
      (p4 <<< 32) ||| (p5 <<< 40) ||| (p6 <<< 48) ||| (p7 <<< 56))

/-- The function `slice8` with the eight table reads checked. -/
def slice8Checked (crc : Nat) : Option Nat :=
  (get2Checked table 7 (crc &&& 0xff)).bind fun t7 =>
  (get2Checked table 6 ((crc >>> 8) &&& 0xff)).bind fun t6 =>
  (get2Checked table 5 ((crc >>> 16) &&& 0xff)).bind fun t5 =>
  (get2Checked table 4 ((crc >>> 24) &&& 0xff)).bind fun t4 =>
  (get2Checked table 3 ((crc >>> 32) &&& 0xff)).bind fun t3 =>
  (get2Checked table 2 ((crc >>> 40) &&& 0xff)).bind fun t2 =>
  (get2Checked table 1 ((crc >>> 48) &&& 0xff)).bind fun t1 =>
  (get2Checked table 0 (crc >>> 56)).bind fun t0 =>
    some (t7 ^^^ t6 ^^^ t5 ^^^ t4 ^^^ t3 ^^^ t2 ^^^ t1 ^^^ t0)

/-- The function `byteStep` with the read `table[0][byte(crc)^v]` checked. -/
def byteStepChecked (crc v : Nat) : Option Nat :=
  (get2Checked table 0 ((crc % 256) ^^^ v)).bind fun t => some (t ^^^ (crc >>> 8))

/-- The function `Checksum` with every read of `p` and of `table` checked:
`none` is an index out of range. -/
def ChecksumChecked (crc : Nat) (p : List Nat) : Option Nat :=
  if p.length > 8 then
    (word8Checked p).bind fun w =>
      (slice8Checked (crc ^^^ w)).bind fun c => ChecksumChecked c (p.drop 8)
  else
    p.foldlM byteStepChecked crc
termination_by p.length
decreasing_by simp only [List.length_drop]; omega

/-! ## Arrays -/

theorem get!_setD {α : Type} [Inhabited α] (a : Array α) (i j : Nat) (v : α) :
    (a.setD i v).get! j = if i = j ∧ i < a.size then v else a.get! j := by
  unfold Array.setD
  by_cases h : i < a.size
  · simp only [h, dite_true, and_true]
    rw [Array.get!_eq_get?, Array.get!_eq_get?, Array.get?_eq_getElem?, Array.get?_eq_getElem?,
      Array.get?_set]
    by_cases hij : i = j
    · simp [hij]
    · simp [hij]
  · simp [h]

theorem set2_wf {t : Array (Array Nat)} (h : TableWF t) (k i v : Nat) :
    TableWF (set2 t k i v) := by
  obtain ⟨h8, hrow⟩ := h
  refine ⟨by simp [set2, h8], fun k' hk' => ?_⟩
  simp only [set2, Array.set!_is_setD, get!_setD]
  split
  · rename_i hc
    rw [Array.size_setD, hrow k (hc.1 ▸ hk')]
  · exact hrow k' hk'

theorem get2_set2 {t : Array (Array Nat)} (h : TableWF t) {k i : Nat} (hk : k < 8)
    (hi : i < 256) (v k' i' : Nat) :
    get2 (set2 t k i v) k' i' = if k = k' ∧ i = i' then v else get2 t k' i' := by
  obtain ⟨h8, hrow⟩ := h
  simp only [get2, set2, Array.set!_is_setD, get!_setD, h8, hk, and_true]
  by_cases hkk : k = k'
  · subst hkk
    simp only [true_and, if_true, get!_setD, hrow k hk, hi, and_true]
  · simp [hkk]

/-! ## The loops of makeTable -/

/-- The table after `n` iterations of the first loop of `makeTable`. -/
theorem loop1_spec (n : Nat) (hn : n ≤ 256) :
    TableWF ((List.range n).foldl (fun t i => set2 t 0 i (table0Entry i))
        (mkArray 8 (mkArray 256 0))) ∧
      ∀ i < n, get2 ((List.range n).foldl (fun t i => set2 t 0 i (table0Entry i))
        (mkArray 8 (mkArray 256 0))) 0 i = table0Entry i := by
  induction n with
  | zero =>
    refine ⟨⟨by simp, fun k hk => ?_⟩, fun i hi => absurd hi (Nat.not_lt_zero i)⟩
    rw [Array.get!_eq_getElem!, getElem!_pos _ _ (by simpa using hk)]
    simp
  | succ n ih =>
    obtain ⟨hwf, hget⟩ := ih (by omega)
    rw [List.range_succ, List.foldl_append]
    simp only [List.foldl_cons, List.foldl_nil]
    refine ⟨set2_wf hwf _ _ _, fun i hi => ?_⟩
    rw [get2_set2 hwf (by decide) (by omega)]
    by_cases h : n = i
    · simp [h]
    · simp only [h, and_false, if_false]
      exact hget i (by omega)

/-- The inner loop of the slice-by-8 part: it keeps the shape of the table,
changes only the cells `(k, i)` with `j ≤ k`, and fills these by iterating
`y ↦ t[0][y&0xff] ^ (y >> 8)`. -/
theorem sliceRow_spec (i : Nat) (hi : i < 256) (f : Nat → Nat) :
    ∀ (n j : Nat) (t : Array (Array Nat)) (v : Nat), TableWF t → 1 ≤ j → j + n = 8 →
      (∀ y, get2 t 0 (y &&& 0xff) ^^^ (y >>> 8) = f y) →
      TableWF (sliceRow i n j (t, v)).1 ∧
      (∀ k' i', (i' ≠ i ∨ k' < j) → get2 (sliceRow i n j (t, v)).1 k' i' = get2 t k' i') ∧
      (∀ k', j ≤ k' → k' < 8 → get2 (sliceRow i n j (t, v)).1 k' i = f^[k' - j + 1] v) := by
  intro n
  induction n with
  | zero =>
    intro j t v hwf _ hjn _
    refine ⟨hwf, fun _ _ _ => rfl, fun k' h1 h2 => ?_⟩
    omega
  | succ n ih =>
    intro j t v hwf hj hjn hf
    have hset : ∀ k' i', (i' ≠ i ∨ k' < j) →
        get2 (set2 t j i (f v)) k' i' = get2 t k' i' := by
      intro k' i' h
      rw [get2_set2 hwf (by omega) hi]
      have : ¬ (j = k' ∧ i = i') := by
        rintro ⟨rfl, rfl⟩
        rcases h with h | h
        · exact h rfl
        · exact Nat.lt_irrefl _ h
      simp [this]
    have hf' : ∀ y, get2 (set2 t j i (f v)) 0 (y &&& 0xff) ^^^ (y >>> 8) = f y := by
      intro y
      rw [hset 0 _ (Or.inr (by omega))]
      exact hf y
    obtain ⟨h1, h2, h3⟩ := ih (j + 1) (set2 t j i (f v)) (f v) (set2_wf hwf _ _ _)
      (by omega) (by omega) hf'
    simp only [sliceRow, hf v]
    refine ⟨h1, fun k' i' h => ?_, fun k' hk' hk8 => ?_⟩
    · rw [h2 k' i' (by omega), hset k' i' h]
    · by_cases hjk : j = k'
      · subst hjk
        rw [h2 j i (Or.inr (by omega)), get2_set2 hwf (by omega) hi]
        simp
      · rw [h3 k' (by omega) hk8]
        have : k' - j + 1 = (k' - (j + 1) + 1) + 1 := by omega
        rw [this]
        rfl

/-- The table after `n` iterations of the second loop of `makeTable`, started
on a table `T`: row 0 is untouched and column `i < n` holds the iterates of
`y ↦ T[0][y&0xff] ^ (y >> 8)` on `T[0][i]`. -/
theorem loop2_spec (T : Array (Array Nat)) (hT : TableWF T) (f : Nat → Nat)
    (hf : ∀ y, get2 T 0 (y &&& 0xff) ^^^ (y >>> 8) = f y) (n : Nat) (hn : n ≤ 256) :
    TableWF ((List.range n).foldl (fun t i => (sliceRow i 7 1 (t, get2 t 0 i)).1) T) ∧
      (∀ i, get2 ((List.range n).foldl (fun t i => (sliceRow i 7 1 (t, get2 t 0 i)).1) T) 0 i
        = get2 T 0 i) ∧
      (∀ i < n, ∀ k, 1 ≤ k → k < 8 →
        get2 ((List.range n).foldl (fun t i => (sliceRow i 7 1 (t, get2 t 0 i)).1) T) k i
          = f^[k] (get2 T 0 i)) := by
  induction n with
  | zero =>
    exact ⟨hT, fun _ => rfl, fun i hi => absurd hi (Nat.not_lt_zero i)⟩
  | succ n ih =>
    obtain ⟨hwf, hrow0, hcol⟩ := ih (by omega)
    rw [List.range_succ, List.foldl_append]
    simp only [List.foldl_cons, List.foldl_nil]
    generalize (List.range n).foldl (fun t i => (sliceRow i 7 1 (t, get2 t 0 i)).1) T = R
      at hwf hrow0 hcol ⊢
    have hfR : ∀ y, get2 R 0 (y &&& 0xff) ^^^ (y >>> 8) = f y := by
      intro y
      rw [hrow0]
      exact hf y
    obtain ⟨h1, h2, h3⟩ := sliceRow_spec n (by omega) f 7 1 R (get2 R 0 n) hwf
      (Nat.le_refl 1) rfl hfR
    refine ⟨h1, fun i => ?_, fun i hi k hk1 hk8 => ?_⟩
    · rw [h2 0 i (Or.inr (by decide)), hrow0]
    · by_cases hin : i = n
      · subst hin
        rw [h3 k hk1 hk8, hrow0]
        have : k - 1 + 1 = k := by omega
        rw [this]
      · rw [h2 k i (Or.inl hin)]
        exact hcol i (by omega) k hk1 hk8

/-- The cells of the table built by `makeTable`: `table[0][i]` is
`table0Entry i`, and each further table is one more `shift8`. -/
theorem makeTable_get {k i : Nat} (hk : k < 8) (hi : i < 256) :
    get2 makeTable k i = shift8^[k] (table0Entry i) := by
  obtain ⟨hwf1, hget1⟩ := loop1_spec 256 (Nat.le_refl _)
  have hf : ∀ y, get2 ((List.range 256).foldl (fun t i => set2 t 0 i (table0Entry i))
      (mkArray 8 (mkArray 256 0))) 0 (y &&& 0xff) ^^^ (y >>> 8) = shift8 y := by
    intro y
    have hy : y &&& 0xff < 256 := by
      rw [Nat.and_pow_two_sub_one_eq_mod y 8]
      exact Nat.mod_lt _ (by decide)
    rw [hget1 _ hy]
    rfl
  obtain ⟨_, hrow0, hcol⟩ := loop2_spec _ hwf1 shift8 hf 256 (Nat.le_refl _)
  unfold makeTable
  by_cases hk0 : k = 0
  · subst hk0
    simp only [Function.iterate_zero, id_eq]
    rw [hrow0, hget1 i hi]
  · rw [hcol i hi k (by omega) hk, hget1 i hi]

/-! ## Evaluation of the table -/

theorem bitLoop_step (c v : Nat) {j : Nat} (h : j &&& 0xff ≠ 0) :
    bitLoop c j v = bitLoop c ((j <<< 1) % 256) (bitStep c j v) := by
  rw [bitLoop, if_pos h]

theorem bitLoop_stop (c v : Nat) {j : Nat} (h : j &&& 0xff = 0) : bitLoop c j v = v := by
  rw [bitLoop, if_neg (by simp [h])]

/-- The loop over `j` runs for `j = 1, 2, 4, ..., 128` and stops at the ninth
test, where the `uint8` value `128 << 1` is 0. -/
theorem bitLoop_one (c v : Nat) : bitLoop c 1 v = bitLoop8 c v := by
  rw [bitLoop_step c _ (by decide : 1 &&& 0xff ≠ 0)]
  rw [show (1 <<< 1) % 256 = 2 from rfl, bitLoop_step c _ (by decide : 2 &&& 0xff ≠ 0)]
  rw [show (2 <<< 1) % 256 = 4 from rfl, bitLoop_step c _ (by decide : 4 &&& 0xff ≠ 0)]
  rw [show (4 <<< 1) % 256 = 8 from rfl, bitLoop_step c _ (by decide : 8 &&& 0xff ≠ 0)]
  rw [show (8 <<< 1) % 256 = 16 from rfl, bitLoop_step c _ (by decide : 16 &&& 0xff ≠ 0)]
  rw [show (16 <<< 1) % 256 = 32 from rfl, bitLoop_step c _ (by decide : 32 &&& 0xff ≠ 0)]
  rw [show (32 <<< 1) % 256 = 64 from rfl, bitLoop_step c _ (by decide : 64 &&& 0xff ≠ 0)]
  rw [show (64 <<< 1) % 256 = 128 from rfl, bitLoop_step c _ (by decide : 128 &&& 0xff ≠ 0)]
  rw [show (128 <<< 1) % 256 = 0 from rfl, bitLoop_stop c _ (by decide : 0 &&& 0xff = 0)]
  rfl

theorem table0Entry_eq (i : Nat) : table0Entry i = table0Fast i := by
  simp only [table0Entry, table0Fast, bitLoop_one]

theorem shift8_eq : shift8 = shift8Fast := by
  funext y
  simp only [shift8, shift8Fast, table0Entry_eq]

theorem table0Fast_lt : ∀ i < 256, table0Fast i < 2 ^ 64 := by decide!

theorem table0Fast_xorBits : ∀ i < 256, table0Fast i = xorBits i 8 := by decide!

/-! ## Bits -/

theorem testBit_byte {d : Nat} (hd : d < 256) {i : Nat} (hi : 8 ≤ i) : d.testBit i = false :=
  Nat.testBit_lt_two_pow (Nat.lt_of_lt_of_le hd (Nat.pow_le_pow_right (Nat.succ_pos 1) hi))

theorem xor_shiftRight (x y n : Nat) : (x ^^^ y) >>> n = (x >>> n) ^^^ (y >>> n) := by
  apply Nat.eq_of_testBit_eq
  intro i
  simp only [Nat.testBit_shiftRight, Nat.testBit_xor]

theorem or_shiftLeft (x y n : Nat) : (x ||| y) <<< n = (x <<< n) ||| (y <<< n) := by
  apply Nat.eq_of_testBit_eq
  intro i
  simp only [Nat.testBit_shiftLeft, Nat.testBit_or]
  cases decide (i ≥ n) <;> simp

theorem or_shift_eq_xor {d : Nat} (hd : d < 256) (w : Nat) :
    d ||| (w <<< 8) = d ^^^ (w <<< 8) := by
  apply Nat.eq_of_testBit_eq
  intro i
  simp only [Nat.testBit_shiftLeft, Nat.testBit_or, Nat.testBit_xor]
  by_cases hi : 8 ≤ i
  · simp [testBit_byte hd hi]
  · simp [hi]

theorem split_low (x : Nat) : (x &&& 0xff) ^^^ ((x >>> 8) <<< 8) = x := by
  apply Nat.eq_of_testBit_eq
  intro i
  have h255 : (0xff : Nat) = 2 ^ 8 - 1 := by decide
  simp only [Nat.testBit_shiftLeft, Nat.testBit_xor, Nat.testBit_and, Nat.testBit_shiftRight,
    h255, Nat.testBit_two_pow_sub_one]
  by_cases hi : 8 ≤ i
  · have : 8 + (i - 8) = i := by omega
    simp [hi, this, Nat.not_lt.mpr hi]
  · simp [hi, Nat.lt_of_not_le hi]

theorem and_255_lt (x : Nat) : x &&& 0xff < 256 := by
  rw [Nat.and_pow_two_sub_one_eq_mod x 8]
  exact Nat.mod_lt _ (by decide)

theorem and_255_of_lt {x : Nat} (h : x < 256) : x &&& 0xff = x := by
  rw [Nat.and_pow_two_sub_one_eq_mod x 8]
  exact Nat.mod_eq_of_lt h

theorem shiftLeft8_and (w : Nat) : (w <<< 8) &&& 0xff = 0 := by
  rw [Nat.and_pow_two_sub_one_eq_mod _ 8, Nat.shiftLeft_eq]
  omega

theorem shiftRight_byte {v : Nat} (h : v < 256) : v >>> 8 = 0 := by
  rw [Nat.shiftRight_eq_div_pow]
  exact Nat.div_eq_of_lt h

theorem shiftRight_lt64 {x : Nat} (h : x < 2 ^ 64) (n : Nat) : x >>> n < 2 ^ 64 := by
  rw [Nat.shiftRight_eq_div_pow]
  exact Nat.lt_of_le_of_lt (Nat.div_le_self _ _) h

theorem shiftRight56_lt {x : Nat} (h : x < 2 ^ 64) : x >>> 56 < 256 := by
  rw [Nat.shiftRight_eq_div_pow]
  omega

theorem xor_cancel_mid (x y t : Nat) : (x ^^^ t) ^^^ (y ^^^ t) = x ^^^ y := by
  apply Nat.eq_of_testBit_eq
  intro i
  simp only [Nat.testBit_xor]
  cases x.testBit i <;> cases y.testBit i <;> cases t.testBit i <;> rfl

/-! ## Table 0 is linear over GF(2) -/

theorem xorBits_xor (a b n : Nat) : xorBits (a ^^^ b) n = xorBits a n ^^^ xorBits b n := by
  induction n with
  | zero => simp [xorBits]
  | succ n ih =>
    simp only [xorBits, ih, Nat.testBit_xor]
    cases a.testBit n <;> cases b.testBit n
    · simp
    · simp [Nat.xor_assoc]
    · simp only [Bool.xor_false, if_true, Bool.false_eq_true, if_false, Nat.xor_zero]
      ac_rfl
    · simp only [Bool.xor_self, Bool.false_eq_true, if_false, Nat.xor_zero, if_true]
      exact (xor_cancel_mid _ _ _).symm

theorem table0Entry_xor {a b : Nat} (ha : a < 256) (hb : b < 256) :
    table0Entry (a ^^^ b) = table0Entry a ^^^ table0Entry b := by
  have hab : a ^^^ b < 256 := Nat.xor_lt_two_pow (n := 8) ha hb
  rw [table0Entry_eq, table0Entry_eq, table0Entry_eq, table0Fast_xorBits _ hab,
    table0Fast_xorBits _ ha, table0Fast_xorBits _ hb, xorBits_xor]

theorem table0Entry_zero : table0Entry 0 = 0 := by
  have h := table0Entry_xor (a := 0) (b := 0) (by decide) (by decide)
  rw [Nat.xor_self] at h
  rw [h, Nat.xor_self]

theorem table0Entry_lt {i : Nat} (hi : i < 256) : table0Entry i < 2 ^ 64 := by
  rw [table0Entry_eq]
  exact table0Fast_lt i hi

/-! ## The map shift8 -/

theorem shift8_xor (x y : Nat) : shift8 (x ^^^ y) = shift8 x ^^^ shift8 y := by
  unfold shift8
  rw [Nat.and_xor_distrib_right, table0Entry_xor (and_255_lt x) (and_255_lt y), xor_shiftRight]
  ac_rfl

theorem shift8_shiftLeft (w : Nat) : shift8 (w <<< 8) = w := by
  unfold shift8
  rw [shiftLeft8_and, table0Entry_zero, Nat.shiftLeft_shiftRight, Nat.zero_xor]

theorem shift8_byte {b : Nat} (hb : b < 256) : shift8 b = table0Entry b := by
  unfold shift8
  rw [and_255_of_lt hb, shiftRight_byte hb, Nat.xor_zero]

theorem shift8_lt {x : Nat} (hx : x < 2 ^ 64) : shift8 x < 2 ^ 64 :=
  Nat.xor_lt_two_pow (table0Entry_lt (and_255_lt x)) (shiftRight_lt64 hx 8)

theorem shift8_iter_xor (n x y : Nat) :
    shift8^[n] (x ^^^ y) = shift8^[n] x ^^^ shift8^[n] y := by
  induction n generalizing x y with
  | zero => rfl
  | succ n ih => rw [Function.iterate_succ_apply, Function.iterate_succ_apply,
      Function.iterate_succ_apply, shift8_xor, ih]

theorem shift8_iter_lt (n : Nat) {x : Nat} (hx : x < 2 ^ 64) : shift8^[n] x < 2 ^ 64 := by
  induction n generalizing x with
  | zero => exact hx
  | succ n ih =>
    rw [Function.iterate_succ_apply]
    exact ih (shift8_lt hx)

/-- Peeling the low byte: `n + 1` shifts of `x` are `n + 1` shifts of its low
byte XOR `n` shifts of the rest. -/
theorem shift8_iter_split (n x : Nat) :
    shift8^[n + 1] x = shift8^[n + 1] (x &&& 0xff) ^^^ shift8^[n] (x >>> 8) := by
  conv_lhs => rw [← split_low x]
  rw [shift8_iter_xor]
  congr 1
  rw [Function.iterate_succ_apply, shift8_shiftLeft]

/-- The cells of `table`: `table[k][b]` is byte `b` shifted `k + 1` times. -/
theorem table_get {k b : Nat} (hk : k < 8) (hb : b < 256) :
    get2 table k b = shift8^[k + 1] b := by
  rw [Function.iterate_succ_apply, shift8_byte hb]
  exact makeTable_get hk hb

theorem table_get_lt {k b : Nat} (hk : k < 8) (hb : b < 256) : get2 table k b < 2 ^ 64 := by
  rw [table_get hk hb]
  exact shift8_iter_lt _ (Nat.lt_trans hb (by decide))

/-! ## Checksum is a fold of byteStep -/

/-- The eight-table combination is eight byte shifts. -/
theorem slice8_eq {x : Nat} (hx : x < 2 ^ 64) : slice8 x = shift8^[8] x := by
  have e2 : x >>> 16 = x >>> 8 >>> 8 := Nat.shiftRight_add x 8 8
  have e3 : x >>> 24 = x >>> 16 >>> 8 := Nat.shiftRight_add x 16 8
  have e4 : x >>> 32 = x >>> 24 >>> 8 := Nat.shiftRight_add x 24 8
  have e5 : x >>> 40 = x >>> 32 >>> 8 := Nat.shiftRight_add x 32 8
  have e6 : x >>> 48 = x >>> 40 >>> 8 := Nat.shiftRight_add x 40 8
  have e7 : x >>> 56 = x >>> 48 >>> 8 := Nat.shiftRight_add x 48 8
  have h7 := shift8_iter_split 7 x
  have h6 := shift8_iter_split 6 (x >>> 8)
  have h5 := shift8_iter_split 5 (x >>> 16)
  have h4 := shift8_iter_split 4 (x >>> 24)
  have h3 := shift8_iter_split 3 (x >>> 32)
  have h2 := shift8_iter_split 2 (x >>> 40)
  have h1 := shift8_iter_split 1 (x >>> 48)
  rw [← e7] at h1
  rw [← e6, h1] at h2
  rw [← e5, h2] at h3
  rw [← e4, h3] at h4
  rw [← e3, h4] at h5
  rw [← e2, h5] at h6
  rw [h6] at h7
  unfold slice8
  rw [table_get (by decide) (and_255_lt x), table_get (by decide) (and_255_lt (x >>> 8)),
    table_get (by decide) (and_255_lt (x >>> 16)), table_get (by decide) (and_255_lt (x >>> 24)),
    table_get (by decide) (and_255_lt (x >>> 32)), table_get (by decide) (and_255_lt (x >>> 40)),
    table_get (by decide) (and_255_lt (x >>> 48)), table_get (by decide) (shiftRight56_lt hx)]
  rw [h7]
  simp only [Nat.xor_assoc]

theorem slice8_lt {x : Nat} (hx : x < 2 ^ 64) : slice8 x < 2 ^ 64 := by
  rw [slice8_eq hx]
  exact shift8_iter_lt 8 hx

/-- One byte of input: XOR it into the low byte, then shift. -/
theorem byteStep_eq (crc : Nat) {v : Nat} (hv : v < 256) : byteStep crc v = shift8 (crc ^^^ v) := by
  have hlow : (crc ^^^ v) &&& 0xff = (crc % 256) ^^^ v := by
    rw [Nat.and_xor_distrib_right, and_255_of_lt hv, Nat.and_pow_two_sub_one_eq_mod crc 8]
  have hidx : (crc % 256) ^^^ v < 256 :=
    Nat.xor_lt_two_pow (n := 8) (Nat.mod_lt _ (by decide)) hv
  unfold byteStep
  rw [table_get (k := 0) (by decide) hidx, Function.iterate_succ_apply, Function.iterate_zero,
    id_eq, shift8_byte hidx]
  unfold shift8
  rw [hlow, xor_shiftRight, shiftRight_byte hv, Nat.xor_zero]

theorem byteStep_lt {crc v : Nat} (hc : crc < 2 ^ 64) (hv : v < 256) :
    byteStep crc v < 2 ^ 64 := by
  rw [byteStep_eq crc hv]
  exact shift8_lt (Nat.xor_lt_two_pow hc (Nat.lt_trans hv (by decide)))

theorem foldl_byteStep_lt (p : List Nat) (hp : ∀ b ∈ p, b < 256) {crc : Nat}
    (hc : crc < 2 ^ 64) : p.foldl byteStep crc < 2 ^ 64 := by
  induction p generalizing crc with
  | nil => exact hc
  | cons d ds ih =>
    rw [List.foldl_cons]
    exact ih (fun b hb => hp b (List.mem_cons_of_mem _ hb))
      (byteStep_lt hc (hp d (List.mem_cons_self _ _)))

/-- Bytes folded one at a time: as many shifts as there are bytes, of the
accumulator XOR the little-endian value of the bytes. -/
theorem foldl_byteStep (p : List Nat) (hp : ∀ b ∈ p, b < 256) (crc : Nat) :
    p.foldl byteStep crc = shift8^[p.length] (crc ^^^ leWord p) := by
  induction p generalizing crc with
  | nil => simp [leWord]
  | cons d ds ih =>
    have hd : d < 256 := hp d (List.mem_cons_self _ _)
    rw [List.foldl_cons, ih (fun b hb => hp b (List.mem_cons_of_mem _ hb)), List.length_cons,
      Function.iterate_succ_apply, byteStep_eq crc hd]
    congr 1
    rw [leWord, or_shift_eq_xor hd, ← Nat.xor_assoc, shift8_xor (crc ^^^ d), shift8_shiftLeft]

theorem leWord_lt (p : List Nat) (hp : ∀ b ∈ p, b < 256) : leWord p < 2 ^ (8 * p.length) := by
  induction p with
  | nil => simp [leWord]
  | cons d ds ih =>
    have hd : d < 256 := hp d (List.mem_cons_self _ _)
    have h := ih (fun b hb => hp b (List.mem_cons_of_mem _ hb))
    have e : 8 * (d :: ds).length = 8 * ds.length + 8 := by simp [Nat.mul_add]
    rw [leWord, e]
    apply Nat.or_lt_two_pow
    · exact Nat.lt_of_lt_of_le hd (Nat.pow_le_pow_right (Nat.succ_pos 1)
        (Nat.le_add_left 8 (8 * ds.length)))
    · rw [Nat.shiftLeft_eq, Nat.pow_add]
      exact Nat.mul_lt_mul_of_lt_of_le h (Nat.le_refl _) (by decide)

/-- The word read by the 8-byte loop is the little-endian value of the first
eight bytes. -/
theorem word8_eq (p : List Nat) (h : 8 ≤ p.length) : word8 p = leWord (p.take 8) := by
  rcases p with _ | ⟨d0, p⟩
  · simp at h
  rcases p with _ | ⟨d1, p⟩
  · simp at h
  rcases p with _ | ⟨d2, p⟩
  · simp at h
  rcases p with _ | ⟨d3, p⟩
  · simp at h
  rcases p with _ | ⟨d4, p⟩
  · simp at h
  rcases p with _ | ⟨d5, p⟩
  · simp at h
  rcases p with _ | ⟨d6, p⟩
  · simp at h
  rcases p with _ | ⟨d7, p⟩
  · simp at h
  simp only [word8, leWord, List.take_succ_cons, List.take_zero, or_shiftLeft,
    ← Nat.shiftLeft_add, Nat.or_assoc, Nat.zero_shiftLeft, Nat.or_zero, List.get!_cons_zero,
    List.get!_cons_succ, Nat.reduceAdd]

theorem Checksum_long (crc : Nat) {p : List Nat} (h : p.length > 8) :
    Checksum crc p = Checksum (slice8 (crc ^^^ word8 p)) (p.drop 8) := by
  rw [Checksum, if_pos h]

theorem Checksum_short (crc : Nat) {p : List Nat} (h : ¬ p.length > 8) :
    Checksum crc p = p.foldl byteStep crc := by
  rw [Checksum, if_neg h]

/-- The 8-byte loop of `Checksum` computes what the byte loop computes. -/
theorem Checksum_eq_foldl_aux (n : Nat) : ∀ (p : List Nat), p.length = n →
    (∀ b ∈ p, b < 256) → ∀ (crc : Nat), crc < 2 ^ 64 →
    Checksum crc p = p.foldl byteStep crc := by
  induction n using Nat.strong_induction_on with
  | _ n ih =>
    intro p hn hp crc hc
    by_cases h : p.length > 8
    · have htake : ∀ b ∈ p.take 8, b < 256 := fun b hb => hp b (List.mem_of_mem_take hb)
      have hdrop : ∀ b ∈ p.drop 8, b < 256 := fun b hb => hp b (List.mem_of_mem_drop hb)
      have hlen : (p.take 8).length = 8 := by
        rw [List.length_take]
        omega
      have hw : word8 p < 2 ^ 64 := by
        rw [word8_eq p (by omega)]
        have := leWord_lt _ htake
        rwa [hlen] at this
      have hx : crc ^^^ word8 p < 2 ^ 64 := Nat.xor_lt_two_pow hc hw
      rw [Checksum_long crc h, ih (p.drop 8).length (by rw [List.length_drop]; omega)
        (p.drop 8) rfl hdrop _ (slice8_lt hx)]
      conv_rhs => rw [← List.take_append_drop 8 p, List.foldl_append]
      rw [foldl_byteStep _ htake, hlen, slice8_eq hx, word8_eq p (by omega)]
    · exact Checksum_short crc h

theorem Checksum_eq_foldl (p : List Nat) (hp : ∀ b ∈ p, b < 256) (crc : Nat)
    (hc : crc < 2 ^ 64) : Checksum crc p = p.foldl byteStep crc :=
  Checksum_eq_foldl_aux p.length p rfl hp crc hc

theorem Checksum_lt (p : List Nat) (hp : ∀ b ∈ p, b < 256) {crc : Nat} (hc : crc < 2 ^ 64) :
    Checksum crc p < 2 ^ 64 := by
  rw [Checksum_eq_foldl p hp crc hc]
  exact foldl_byteStep_lt p hp hc

/-- Chaining: the checksum of `a ++ b` is the checksum of `b` seeded with the
checksum of `a`. -/
theorem Checksum_append (a b : List Nat) (ha : ∀ x ∈ a, x < 256) (hb : ∀ x ∈ b, x < 256)
    (crc : Nat) (hc : crc < 2 ^ 64) :
    Checksum (Checksum crc a) b = Checksum crc (a ++ b) := by
  have hab : ∀ x ∈ a ++ b, x < 256 := by
    intro x hx
    rcases List.mem_append.mp hx with h | h
    · exact ha x h
    · exact hb x h
  rw [Checksum_eq_foldl b hb _ (Checksum_lt a ha hc), Checksum_eq_foldl a ha crc hc,
    Checksum_eq_foldl (a ++ b) hab crc hc, List.foldl_append]

/-! ## The digest -/

theorem Checksum_nil (crc : Nat) : Checksum crc [] = crc := by
  rw [Checksum_short crc (by simp)]
  rfl

theorem writeAll_crc (chunks : List (List Nat)) (hc : ∀ c ∈ chunks, ∀ b ∈ c, b < 256)
    (d : digest) (hd : d.crc < 2 ^ 64) :
    (writeAll d chunks).crc = Checksum d.crc chunks.flatten := by
  induction chunks generalizing d with
  | nil => exact (Checksum_nil d.crc).symm
  | cons c cs ih =>
    have hc0 : ∀ b ∈ c, b < 256 := hc c (List.mem_cons_self _ _)
    have hcs : ∀ c' ∈ cs, ∀ b ∈ c', b < 256 := fun c' h => hc c' (List.mem_cons_of_mem _ h)
    have hfl : ∀ b ∈ cs.flatten, b < 256 := by
      intro b hb
      obtain ⟨c', hc', hbc⟩ := List.mem_flatten.mp hb
      exact hcs c' hc' b hbc
    have hstep : (writeAll d (c :: cs)) = writeAll (d.Write c).2 cs := rfl
    rw [hstep, ih hcs (d.Write c).2 (Checksum_lt c hc0 hd), List.flatten_cons]
    exact Checksum_append c cs.flatten hc0 hfl d.crc hd

theorem writeAll_of_flatten (chunks : List (List Nat)) (p : List Nat)
    (h : chunks.flatten = p) (hp : ∀ b ∈ p, b < 256) (d : digest) (hd : d.crc < 2 ^ 64) :
    (writeAll d chunks).crc = Checksum d.crc p := by
  subst h
  exact writeAll_crc chunks
    (fun c hc b hb => hp b (List.mem_flatten.mpr ⟨c, hc, hb⟩)) d hd

theorem blocksAux_flatten (fuel : Nat) : ∀ p : List Nat, p.length ≤ fuel →
    (blocksAux fuel p).flatten = p := by
  induction fuel with
  | zero =>
    intro p hp
    have : p = [] := List.length_eq_zero.mp (Nat.le_zero.mp hp)
    subst this
    rfl
  | succ fuel ih =>
    intro p hp
    by_cases h : p = []
    · subst h
      rfl
    · have hlen : 0 < p.length := List.length_pos.mpr h
      have hd : (p.drop 8).length ≤ fuel := by
        rw [List.length_drop]
        omega
      simp only [blocksAux, h, if_false, List.flatten_cons, ih _ hd, List.take_append_drop]

theorem blocks8_flatten (p : List Nat) : (blocks8 p).flatten = p :=
  blocksAux_flatten p.length p (Nat.le_refl _)

theorem singletons_flatten (p : List Nat) : (p.map fun b => [b]).flatten = p := by
  induction p with
  | nil => rfl
  | cons b bs ih => simp only [List.map_cons, List.flatten_cons, ih, List.singleton_append]

theorem runReads_eq (d : digest) (ops : List ReadOp) : runReads d ops = d := by
  induction ops with
  | nil => rfl
  | cons op ops ih =>
    have h : runReads d (op :: ops) = runReads (ReadOp.run d op) ops := rfl
    rw [h]
    cases op <;> exact ih

/-! ## The claims -/

/-- Claim C1: the checksum of the nine ASCII bytes of "123456789" with seed 0,
over the tables built by `makeTable`, is `0xe9c6d914c4b8d9ca`. -/
theorem Checksum_known_answer :
    Checksum 0 [0x31, 0x32, 0x33, 0x34, 0x35, 0x36, 0x37, 0x38, 0x39] = 0xe9c6d914c4b8d9ca := by
  rw [Checksum_eq_foldl _ (by decide) 0 (by decide), foldl_byteStep _ (by decide), shift8_eq]
  decide!

/-- Claim C2: incremental consistency.  For every 64-bit seed and all byte
sequences `a` and `b`, of any lengths, the checksum of `b` seeded with the
checksum of `a` is the checksum of `a ++ b`. -/
theorem Checksum_incremental (seed : Nat) (a b : List Nat) (hs : seed < 2 ^ 64)
    (ha : ∀ x ∈ a, x < 256) (hb : ∀ x ∈ b, x < 256) :
    Checksum (Checksum seed a) b = Checksum seed (a ++ b) :=
  Checksum_append a b ha hb seed hs

/-- Witness of C2: a split of 13 bytes after the tenth, across the 8-byte
boundary. -/
theorem Checksum_incremental_witness :
    7 < 2 ^ 64 ∧ (∀ x ∈ [1, 2, 3, 4, 5, 6, 7, 8, 9, 10], x < 256) ∧
      (∀ x ∈ [11, 12, 255], x < 256) ∧
      Checksum (Checksum 7 [1, 2, 3, 4, 5, 6, 7, 8, 9, 10]) [11, 12, 255] =
        Checksum 7 ([1, 2, 3, 4, 5, 6, 7, 8, 9, 10] ++ [11, 12, 255]) :=
  ⟨by decide, by decide, by decide,
    Checksum_incremental 7 [1, 2, 3, 4, 5, 6, 7, 8, 9, 10] [11, 12, 255] (by decide)
      (by decide) (by decide)⟩

/-- Claim C3: streaming equals one-shot.  For a digest with a 64-bit
accumulator `d.crc` (0 for a digest from `New`) and every list of chunks of
bytes, `Write` on the chunks in order and then `Sum64` returns the checksum of
their concatenation seeded with `d.crc`; so two ways of chunking the same
bytes give the same `Sum64`, and in particular the bytes `p` written in one
call, byte by byte, or in blocks of 8 all give `Checksum d.crc p`. -/
theorem digest_streaming (d : digest) (chunks chunks' : List (List Nat)) (p : List Nat)
    (hd : d.crc < 2 ^ 64) (hc : ∀ c ∈ chunks, ∀ b ∈ c, b < 256)
    (hc' : ∀ c ∈ chunks', ∀ b ∈ c, b < 256) (hp : ∀ b ∈ p, b < 256) :
    (writeAll d chunks).Sum64.1 = Checksum d.crc chunks.flatten ∧
      New.crc = 0 ∧
      (chunks.flatten = chunks'.flatten →
        (writeAll d chunks).Sum64.1 = (writeAll d chunks').Sum64.1) ∧
      (writeAll d [p]).Sum64.1 = Checksum d.crc p ∧
      (writeAll d (p.map fun b => [b])).Sum64.1 = Checksum d.crc p ∧
      (writeAll d (blocks8 p)).Sum64.1 = Checksum d.crc p := by
  have h1 : (writeAll d chunks).Sum64.1 = Checksum d.crc chunks.flatten :=
    writeAll_crc chunks hc d hd
  have h2 : (writeAll d chunks').Sum64.1 = Checksum d.crc chunks'.flatten :=
    writeAll_crc chunks' hc' d hd
  refine ⟨h1, rfl, fun h => ?_, rfl, ?_, ?_⟩
  · rw [h1, h2, h]
  · exact writeAll_of_flatten _ p (singletons_flatten p) hp d hd
  · exact writeAll_of_flatten _ p (blocks8_flatten p) hp d hd

/-- Witness of C3: ten bytes written to a new digest in blocks of 8 and
byte by byte. -/
theorem digest_streaming_witness :
    New.crc < 2 ^ 64 ∧
      (∀ c ∈ [[1, 2, 3, 4, 5, 6, 7, 8], [9, 10]], ∀ b ∈ c, b < 256) ∧
      (∀ c ∈ [[1], [2], [3], [4], [5], [6], [7], [8], [9], [10]], ∀ b ∈ c, b < 256) ∧
      (∀ b ∈ [1, 2, 3, 4, 5, 6, 7, 8, 9, 10], b < 256) ∧
      (writeAll New [[1, 2, 3, 4, 5, 6, 7, 8], [9, 10]]).Sum64.1 =
        Checksum New.crc [[1, 2, 3, 4, 5, 6, 7, 8], [9, 10]].flatten ∧
      New.crc = 0 ∧
      ([[1, 2, 3, 4, 5, 6, 7, 8], [9, 10]].flatten =
          [[1], [2], [3], [4], [5], [6], [7], [8], [9], [10]].flatten →
        (writeAll New [[1, 2, 3, 4, 5, 6, 7, 8], [9, 10]]).Sum64.1 =
          (writeAll New [[1], [2], [3], [4], [5], [6], [7], [8], [9], [10]]).Sum64.1) ∧
      (writeAll New [[1, 2, 3, 4, 5, 6, 7, 8, 9, 10]]).Sum64.1 =
        Checksum New.crc [1, 2, 3, 4, 5, 6, 7, 8, 9, 10] ∧
      (writeAll New ([1, 2, 3, 4, 5, 6, 7, 8, 9, 10].map fun b => [b])).Sum64.1 =
        Checksum New.crc [1, 2, 3, 4, 5, 6, 7, 8, 9, 10] ∧
      (writeAll New (blocks8 [1, 2, 3, 4, 5, 6, 7, 8, 9, 10])).Sum64.1 =
        Checksum New.crc [1, 2, 3, 4, 5, 6, 7, 8, 9, 10] :=
  ⟨by decide, by decide, by decide, by decide,
    digest_streaming New [[1, 2, 3, 4, 5, 6, 7, 8], [9, 10]]
      [[1], [2], [3], [4], [5], [6], [7], [8], [9], [10]] [1, 2, 3, 4, 5, 6, 7, 8, 9, 10]
      (by decide) (by decide) (by decide) (by decide)⟩

/-- Claim C4: the checksum of the empty byte sequence is the seed, for every
seed. -/
theorem Checksum_empty (seed : Nat) : Checksum seed [] = seed :=
  Checksum_nil seed

/-- Claim C5: for a digest with a 64-bit accumulator, `Sum(inp)` is `inp`
followed by 8 bytes; `inp` is unchanged and the 8 bytes, decoded as a
little-endian integer, are the value of `Sum64()`, the accumulator. -/
theorem digest_Sum_roundtrip (d : digest) (inp : List Nat) (hd : d.crc < 2 ^ 64) :
    (d.Sum inp).1.take inp.length = inp ∧
      ((d.Sum inp).1.drop inp.length).length = 8 ∧
      (∀ b ∈ (d.Sum inp).1.drop inp.length, b < 256) ∧
      decodeLE ((d.Sum inp).1.drop inp.length) = d.Sum64.1 ∧
      d.Sum64.1 = d.crc := by
  have hdrop : (d.Sum inp).1.drop inp.length =
      [d.crc % 256, (d.crc >>> 8) % 256, (d.crc >>> 16) % 256, (d.crc >>> 24) % 256,
        (d.crc >>> 32) % 256, (d.crc >>> 40) % 256, (d.crc >>> 48) % 256,
        (d.crc >>> 56) % 256] := List.drop_left _ _
  refine ⟨List.take_left _ _, ?_, ?_, ?_, rfl⟩
  · rw [hdrop]
    rfl
  · rw [hdrop]
    intro b hb
    simp only [List.mem_cons, List.mem_singleton, List.not_mem_nil, or_false] at hb
    rcases hb with h | h | h | h | h | h | h | h <;> rw [h] <;> exact Nat.mod_lt _ (by decide)
  · rw [hdrop]
    simp only [decodeLE, digest.Sum64, Nat.shiftRight_eq_div_pow]
    norm_num
    omega

/-- Witness of C5: the accumulator `0xe9c6d914c4b8d9ca` appended to two bytes. -/
theorem digest_Sum_roundtrip_witness :
    (digest.mk 0xe9c6d914c4b8d9ca).crc < 2 ^ 64 ∧
      ((digest.mk 0xe9c6d914c4b8d9ca).Sum [1, 2]).1.take [1, 2].length = [1, 2] ∧
      (((digest.mk 0xe9c6d914c4b8d9ca).Sum [1, 2]).1.drop [1, 2].length).length = 8 ∧
      (∀ b ∈ ((digest.mk 0xe9c6d914c4b8d9ca).Sum [1, 2]).1.drop [1, 2].length, b < 256) ∧
      decodeLE (((digest.mk 0xe9c6d914c4b8d9ca).Sum [1, 2]).1.drop [1, 2].length) =
        (digest.mk 0xe9c6d914c4b8d9ca).Sum64.1 ∧
      (digest.mk 0xe9c6d914c4b8d9ca).Sum64.1 = (digest.mk 0xe9c6d914c4b8d9ca).crc :=
  ⟨by decide, digest_Sum_roundtrip (digest.mk 0xe9c6d914c4b8d9ca) [1, 2] (by decide)⟩

/-- Claim C6: after `Reset()` the value of `Sum64()` is 0 whatever the digest
was (in particular after any sequence of `Write` calls on any digest), the
same as for a digest from `New()`; and `Write(data)` after `Reset()` gives
`Sum64() = Checksum(0, data)`. -/
theorem digest_Reset (d : digest) (chunks : List (List Nat)) (data : List Nat) :
    d.Reset.Sum64.1 = 0 ∧
      (writeAll d chunks).Reset.Sum64.1 = 0 ∧
      New.Sum64.1 = 0 ∧
      (writeAll d chunks).Reset = New ∧
      (((writeAll d chunks).Reset.Write data).2).Sum64.1 = Checksum 0 data :=
  ⟨rfl, rfl, rfl, rfl, rfl⟩

/-- Claim C7: reading does not change the state.  `Sum64()`, `Sum(inp)`,
`BlockSize()` and `Size()` return the digest they were called on; so after any
sequence of such calls `Sum64()` has the value it had before and `Write(p)`
does what it would have done before. -/
theorem digest_reads_frame (d : digest) (inp p : List Nat) (ops : List ReadOp) :
    d.Sum64.2 = d ∧ (d.Sum inp).2 = d ∧ d.BlockSize.2 = d ∧ d.Size.2 = d ∧
      runReads d ops = d ∧
      (runReads d ops).Sum64.1 = d.Sum64.1 ∧
      (runReads d ops).Write p = d.Write p := by
  refine ⟨rfl, rfl, rfl, rfl, runReads_eq d ops, ?_, ?_⟩
  · rw [runReads_eq]
  · rw [runReads_eq]

/-- Claim C8: `Write(p)` never fails.  For every digest and every `p`, also
the empty one, it returns `(len(p), nil)` and the accumulator becomes
`Checksum(old accumulator, p)`. -/
theorem digest_Write (d : digest) (p : List Nat) :
    (d.Write p).1 = (p.length, none) ∧
      (d.Write p).2.crc = Checksum d.crc p ∧
      (d.Write []).1 = (0, none) ∧
      (d.Write []).2.crc = d.crc :=
  ⟨rfl, rfl, rfl, Checksum_nil d.crc⟩

/-- Counterexample to C9: seeded with `Xor_In = 0xffffffffffffffff`, the
checksum of "123456789" is not the documented check value. -/
theorem Checksum_xor_in_not_check :
    ¬ (Checksum 0xffffffffffffffff [0x31, 0x32, 0x33, 0x34, 0x35, 0x36, 0x37, 0x38, 0x39]
      = 0xe9c6d914c4b8d9ca) := by
  rw [Checksum_eq_foldl _ (by decide) _ (by decide), foldl_byteStep _ (by decide), shift8_eq]
  decide!

/-- Claim C9, amended: the documented check value `0xe9c6d914c4b8d9ca` is the
checksum of "123456789" with seed 0; with `Xor_In = 0xffffffffffffffff` as the
seed the checksum of "123456789" is `0xcaa717168609f281`. -/
theorem Checksum_check_value_seed :
    Checksum 0xffffffffffffffff [0x31, 0x32, 0x33, 0x34, 0x35, 0x36, 0x37, 0x38, 0x39]
        = 0xcaa717168609f281 ∧
      Checksum 0 [0x31, 0x32, 0x33, 0x34, 0x35, 0x36, 0x37, 0x38, 0x39]
        = 0xe9c6d914c4b8d9ca := by
  constructor
  · rw [Checksum_eq_foldl _ (by decide) _ (by decide), foldl_byteStep _ (by decide), shift8_eq]
    decide!
  · rw [Checksum_eq_foldl _ (by decide) _ (by decide), foldl_byteStep _ (by decide), shift8_eq]
    decide!

/-- Claim C10: declared sizes.  `Size()` is 8, `Sum(inp)` is `Size()` bytes
longer than `inp`, and `BlockSize()` is 1. -/
theorem digest_sizes (d : digest) (inp : List Nat) :
    d.Size.1 = 8 ∧ (d.Sum inp).1.length = inp.length + d.Size.1 ∧ d.BlockSize.1 = 1 := by
  refine ⟨rfl, ?_, rfl⟩
  simp [digest.Sum, digest.Size]

/-! ## The algorithm of the spec -/

theorem decodeLE_eq_leWord (p : List Nat) (hp : ∀ b ∈ p, b < 256) : decodeLE p = leWord p := by
  induction p with
  | nil => rfl
  | cons d ds ih =>
    have hd : d < 2 ^ 8 := hp d (List.mem_cons_self _ _)
    rw [decodeLE, leWord, ih (fun b hb => hp b (List.mem_cons_of_mem _ hb)), Nat.shiftLeft_eq,
      Nat.or_comm, Nat.mul_comm (leWord ds), ← Nat.mul_add_lt_is_or hd, Nat.add_comm]

theorem specStep_eq (c v : Nat) : specStep c v = byteStep c v := by
  unfold specStep byteStep
  rw [Nat.and_pow_two_sub_one_eq_mod c 8]

theorem foldl_specStep (p : List Nat) (c : Nat) : p.foldl specStep c = p.foldl byteStep c := by
  have h : specStep = byteStep := by
    funext c v
    exact specStep_eq c v
  rw [h]

theorem specBlock_eq {x : Nat} (hx : x < 2 ^ 64) : specBlock x = slice8 x := by
  unfold specBlock slice8
  rw [and_255_of_lt (shiftRight56_lt hx), Nat.shiftRight_zero]

/-- Eight bytes folded one at a time are one application of the eight tables. -/
theorem foldl_block {crc : Nat} (hc : crc < 2 ^ 64) (p : List Nat) (hp : ∀ b ∈ p, b < 256)
    (h8 : p.length = 8) : p.foldl byteStep crc = slice8 (crc ^^^ leWord p) := by
  have hw : leWord p < 2 ^ 64 := by
    have := leWord_lt p hp
    rwa [h8] at this
  rw [foldl_byteStep p hp, h8, slice8_eq (Nat.xor_lt_two_pow hc hw)]

theorem take8_bytes {p : List Nat} (hp : ∀ b ∈ p, b < 256) : ∀ b ∈ p.take 8, b < 256 :=
  fun b hb => hp b (List.mem_of_mem_take hb)

theorem drop8_bytes {p : List Nat} (hp : ∀ b ∈ p, b < 256) : ∀ b ∈ p.drop 8, b < 256 :=
  fun b hb => hp b (List.mem_of_mem_drop hb)

theorem take8_length {p : List Nat} (h : 8 ≤ p.length) : (p.take 8).length = 8 := by
  rw [List.length_take]
  omega

theorem specUpdate_eq_foldl_aux (n : Nat) : ∀ (p : List Nat), p.length = n →
    (∀ b ∈ p, b < 256) → ∀ (acc : Nat), acc < 2 ^ 64 →
    specUpdate acc p = p.foldl byteStep acc := by
  induction n using Nat.strong_induction_on with
  | _ n ih =>
    intro p hn hp acc hc
    by_cases h : p.length ≥ 8
    · have hw : leWord (p.take 8) < 2 ^ 64 := by
        have := leWord_lt _ (take8_bytes hp)
        rwa [take8_length h] at this
      have hx : acc ^^^ leWord (p.take 8) < 2 ^ 64 := Nat.xor_lt_two_pow hc hw
      rw [specUpdate, if_pos h]
      simp only []
      rw [decodeLE_eq_leWord _ (take8_bytes hp), specBlock_eq hx,
        ih (p.drop 8).length (by rw [List.length_drop]; omega) (p.drop 8) rfl (drop8_bytes hp) _
          (slice8_lt hx)]
      conv_rhs => rw [← List.take_append_drop 8 p, List.foldl_append]
      rw [foldl_block hc _ (take8_bytes hp) (take8_length h)]
    · rw [specUpdate, if_neg h, foldl_specStep]

theorem specUpdate_eq_foldl (p : List Nat) (hp : ∀ b ∈ p, b < 256) (acc : Nat)
    (hc : acc < 2 ^ 64) : specUpdate acc p = p.foldl byteStep acc :=
  specUpdate_eq_foldl_aux p.length p rfl hp acc hc

theorem table_zero {k : Nat} (hk : k < 8) : get2 table k 0 = 0 := by
  rw [table_get hk (by decide)]
  have h0 : shift8 0 = 0 := by
    rw [shift8_byte (by decide), table0Entry_zero]
  exact Function.iterate_fixed h0 _

theorem foldl_byteStep_zeros (n : Nat) : (List.replicate n 0).foldl byteStep 0 = 0 := by
  induction n with
  | zero => rfl
  | succ n ih =>
    have h0 : byteStep 0 0 = 0 := by
      rw [byteStep_eq 0 (by decide), Nat.xor_self, shift8_byte (by decide), table0Entry_zero]
    rw [List.replicate_succ, List.foldl_cons, h0, ih]

theorem replicate_zero_bytes (n : Nat) : ∀ b ∈ List.replicate n 0, b < 256 := by
  intro b hb
  rw [(List.mem_replicate.mp hb).2]
  decide

/-! ## The claims on the algorithm and the tables -/

/-- Claim C11: slice-by-8 equals byte-at-a-time.  For a 64-bit `crc` and bytes
`p`, `Checksum crc p` is the left fold over `p` of the single-table step
`table[0][(c & 0xff) XOR v] XOR (c >> 8)` from `crc`; and the 8-table fast
path on the first 8 bytes computes what 8 single-byte steps compute. -/
theorem Checksum_slice_by_8 (crc : Nat) (p : List Nat) (hc : crc < 2 ^ 64)
    (hp : ∀ b ∈ p, b < 256) :
    Checksum crc p = p.foldl specStep crc ∧
      (8 ≤ p.length → slice8 (crc ^^^ word8 p) = (p.take 8).foldl specStep crc) := by
  refine ⟨?_, fun h => ?_⟩
  · rw [foldl_specStep]
    exact Checksum_eq_foldl p hp crc hc
  · rw [foldl_specStep, foldl_block hc _ (take8_bytes hp) (take8_length h), word8_eq p h]

/-- Witness of C11: eleven bytes, one 8-byte block and three single bytes. -/
theorem Checksum_slice_by_8_witness :
    3 < 2 ^ 64 ∧ (∀ b ∈ [1, 2, 3, 4, 5, 6, 7, 8, 9, 10, 255], b < 256) ∧
      Checksum 3 [1, 2, 3, 4, 5, 6, 7, 8, 9, 10, 255] =
        [1, 2, 3, 4, 5, 6, 7, 8, 9, 10, 255].foldl specStep 3 ∧
      (8 ≤ [1, 2, 3, 4, 5, 6, 7, 8, 9, 10, 255].length →
        slice8 (3 ^^^ word8 [1, 2, 3, 4, 5, 6, 7, 8, 9, 10, 255]) =
          ([1, 2, 3, 4, 5, 6, 7, 8, 9, 10, 255].take 8).foldl specStep 3) :=
  ⟨by decide, by decide,
    Checksum_slice_by_8 3 [1, 2, 3, 4, 5, 6, 7, 8, 9, 10, 255] (by decide) (by decide)⟩

/-- Claim C12: for a 64-bit accumulator `a` and exactly 8 bytes `d`, with
`x = a XOR (d as a little-endian word)`, `Checksum a d` is
`table[7][byte_0] XOR ... XOR table[0][byte_7]`, `byte_i = (x >> 8i) & 0xff`;
and on all bytes `p`, `Checksum` returns what the algorithm of the spec returns,
whose 8-byte loop runs while at least 8 bytes remain (the loop of the code
runs while more than 8 remain). -/
theorem Checksum_eq_specUpdate (a : Nat) (d p : List Nat) (ha : a < 2 ^ 64)
    (hd : ∀ b ∈ d, b < 256) (hd8 : d.length = 8) (hp : ∀ b ∈ p, b < 256) :
    Checksum a d = specBlock (a ^^^ decodeLE d) ∧ Checksum a p = specUpdate a p := by
  constructor
  · have hw : leWord d < 2 ^ 64 := by
      have := leWord_lt d hd
      rwa [hd8] at this
    rw [Checksum_eq_foldl d hd a ha, foldl_block ha d hd hd8, decodeLE_eq_leWord d hd,
      specBlock_eq (Nat.xor_lt_two_pow ha hw)]
  · rw [Checksum_eq_foldl p hp a ha, specUpdate_eq_foldl p hp a ha]

/-- Witness of C12: a block of exactly 8 bytes, and 16 bytes (two blocks for
the spec, one block and 8 single bytes for the code). -/
theorem Checksum_eq_specUpdate_witness :
    5 < 2 ^ 64 ∧ (∀ b ∈ [1, 2, 3, 4, 5, 6, 7, 8], b < 256) ∧
      [1, 2, 3, 4, 5, 6, 7, 8].length = 8 ∧
      (∀ b ∈ [1, 2, 3, 4, 5, 6, 7, 8, 9, 10, 11, 12, 13, 14, 15, 16], b < 256) ∧
      Checksum 5 [1, 2, 3, 4, 5, 6, 7, 8] =
        specBlock (5 ^^^ decodeLE [1, 2, 3, 4, 5, 6, 7, 8]) ∧
      Checksum 5 [1, 2, 3, 4, 5, 6, 7, 8, 9, 10, 11, 12, 13, 14, 15, 16] =
        specUpdate 5 [1, 2, 3, 4, 5, 6, 7, 8, 9, 10, 11, 12, 13, 14, 15, 16] :=
  ⟨by decide, by decide, by decide, by decide,
    Checksum_eq_specUpdate 5 [1, 2, 3, 4, 5, 6, 7, 8]
      [1, 2, 3, 4, 5, 6, 7, 8, 9, 10, 11, 12, 13, 14, 15, 16] (by decide) (by decide)
      (by decide) (by decide)⟩

/-- Claim C15: table self-consistency.  For every byte `b` and `k` in `1..7`,
the tables built by `makeTable` satisfy
`table[k][b] = table[0][table[k-1][b] & 0xff] XOR (table[k-1][b] >> 8)`. -/
theorem makeTable_self_consistent (b k : Nat) (hb : b < 256) (hk1 : 1 ≤ k) (hk7 : k ≤ 7) :
    get2 makeTable k b =
      get2 makeTable 0 (get2 makeTable (k - 1) b &&& 0xff) ^^^
        (get2 makeTable (k - 1) b >>> 8) := by
  obtain ⟨m, rfl⟩ : ∃ m, k = m + 1 := ⟨k - 1, by omega⟩
  rw [Nat.add_sub_cancel, makeTable_get (by omega : m + 1 < 8) hb,
    makeTable_get (by omega : m < 8) hb,
    makeTable_get (by decide : 0 < 8) (and_255_lt _), Function.iterate_succ_apply',
    Function.iterate_zero, id_eq]
  rfl

/-- Witness of C15: the cell `table[7][255]`. -/
theorem makeTable_self_consistent_witness :
    255 < 256 ∧ 1 ≤ 7 ∧ 7 ≤ 7 ∧
      get2 makeTable 7 255 =
        get2 makeTable 0 (get2 makeTable (7 - 1) 255 &&& 0xff) ^^^
          (get2 makeTable (7 - 1) 255 >>> 8) :=
  ⟨by decide, by decide, by decide,
    makeTable_self_consistent 255 7 (by decide) (by decide) (by decide)⟩

/-! ## Linearity -/

theorem xor_shiftLeft (x y n : Nat) : (x ^^^ y) <<< n = (x <<< n) ^^^ (y <<< n) := by
  apply Nat.eq_of_testBit_eq
  intro i
  simp only [Nat.testBit_shiftLeft, Nat.testBit_xor]
  cases decide (i ≥ n) <;> simp

theorem zipWith_xor_bytes : ∀ (p q : List Nat), (∀ b ∈ p, b < 256) → (∀ b ∈ q, b < 256) →
    ∀ b ∈ List.zipWith (· ^^^ ·) p q, b < 256
  | [], _, _, _ => by simp
  | _ :: _, [], _, _ => by simp
  | d :: ds, e :: es, hp, hq => by
    intro b hb
    rw [List.zipWith_cons_cons, List.mem_cons] at hb
    rcases hb with h | h
    · rw [h]
      exact Nat.xor_lt_two_pow (n := 8) (hp d (List.mem_cons_self _ _))
        (hq e (List.mem_cons_self _ _))
    · exact zipWith_xor_bytes ds es (fun b hb => hp b (List.mem_cons_of_mem _ hb))
        (fun b hb => hq b (List.mem_cons_of_mem _ hb)) b h

theorem leWord_zipWith_xor : ∀ (p q : List Nat), (∀ b ∈ p, b < 256) → (∀ b ∈ q, b < 256) →
    p.length = q.length → leWord (List.zipWith (· ^^^ ·) p q) = leWord p ^^^ leWord q
  | [], [], _, _, _ => by simp [leWord]
  | [], _ :: _, _, _, h => by simp at h
  | _ :: _, [], _, _, h => by simp at h
  | d :: ds, e :: es, hp, hq, h => by
    have hd : d < 256 := hp d (List.mem_cons_self _ _)
    have he : e < 256 := hq e (List.mem_cons_self _ _)
    have hde : d ^^^ e < 256 := Nat.xor_lt_two_pow (n := 8) hd he
    have ih := leWord_zipWith_xor ds es (fun b hb => hp b (List.mem_cons_of_mem _ hb))
      (fun b hb => hq b (List.mem_cons_of_mem _ hb)) (by simpa using h)
    rw [List.zipWith_cons_cons, leWord, leWord, leWord, ih, or_shift_eq_xor hde,
      or_shift_eq_xor hd, or_shift_eq_xor he, xor_shiftLeft]
    ac_rfl

theorem Checksum_xor (a b : Nat) (p q : List Nat) (ha : a < 2 ^ 64) (hb : b < 2 ^ 64)
    (hp : ∀ x ∈ p, x < 256) (hq : ∀ x ∈ q, x < 256) (hlen : p.length = q.length) :
    Checksum (a ^^^ b) (List.zipWith (· ^^^ ·) p q) = Checksum a p ^^^ Checksum b q := by
  have hz := zipWith_xor_bytes p q hp hq
  have hzl : (List.zipWith (· ^^^ ·) p q).length = p.length := by
    rw [List.length_zipWith, hlen, Nat.min_self]
  rw [Checksum_eq_foldl _ hz _ (Nat.xor_lt_two_pow ha hb), Checksum_eq_foldl p hp a ha,
    Checksum_eq_foldl q hq b hb, foldl_byteStep _ hz, foldl_byteStep p hp, foldl_byteStep q hq,
    hzl, ← hlen, ← shift8_iter_xor, leWord_zipWith_xor p q hp hq hlen]
  congr 1
  ac_rfl

/-- Claim C16: linearity over GF(2).  For 64-bit seeds `a`, `b` and byte
sequences `p`, `q` of equal length, the checksum of the bytewise XOR of `p` and
`q` seeded with `a XOR b` is `Checksum a p XOR Checksum b q`. -/
theorem Checksum_linear (a b : Nat) (p q : List Nat) (ha : a < 2 ^ 64) (hb : b < 2 ^ 64)
    (hp : ∀ x ∈ p, x < 256) (hq : ∀ x ∈ q, x < 256) (hlen : p.length = q.length) :
    Checksum (a ^^^ b) (List.zipWith (· ^^^ ·) p q) = Checksum a p ^^^ Checksum b q :=
  Checksum_xor a b p q ha hb hp hq hlen

/-- Witness of C16: two sequences of ten bytes. -/
theorem Checksum_linear_witness :
    6 < 2 ^ 64 ∧ 0xffffffffffffffff < 2 ^ 64 ∧
      (∀ x ∈ [1, 2, 3, 4, 5, 6, 7, 8, 9, 10], x < 256) ∧
      (∀ x ∈ [255, 0, 17, 4, 5, 96, 7, 8, 200, 1], x < 256) ∧
      [1, 2, 3, 4, 5, 6, 7, 8, 9, 10].length = [255, 0, 17, 4, 5, 96, 7, 8, 200, 1].length ∧
      Checksum (6 ^^^ 0xffffffffffffffff)
          (List.zipWith (· ^^^ ·) [1, 2, 3, 4, 5, 6, 7, 8, 9, 10]
            [255, 0, 17, 4, 5, 96, 7, 8, 200, 1]) =
        Checksum 6 [1, 2, 3, 4, 5, 6, 7, 8, 9, 10] ^^^
          Checksum 0xffffffffffffffff [255, 0, 17, 4, 5, 96, 7, 8, 200, 1] :=
  ⟨by decide, by decide, by decide, by decide, by decide,
    Checksum_linear 6 0xffffffffffffffff [1, 2, 3, 4, 5, 6, 7, 8, 9, 10]
      [255, 0, 17, 4, 5, 96, 7, 8, 200, 1] (by decide) (by decide) (by decide) (by decide)
      (by decide)⟩

/-! ## Injectivity -/

theorem table0Fast_top : ∀ b < 256, b ≠ 0 → 2 ^ 56 ≤ table0Fast b := by decide!

/-- On 64-bit values only 0 is shifted to 0: the top byte of `table[0][b]` is
not 0 unless `b` is. -/
theorem shift8_eq_zero {x : Nat} (hx : x < 2 ^ 64) (h : shift8 x = 0) : x = 0 := by
  unfold shift8 at h
  have h1 : table0Entry (x &&& 0xff) = x >>> 8 := Nat.xor_eq_zero.mp h
  have h2 : x >>> 8 < 2 ^ 56 := by
    rw [Nat.shiftRight_eq_div_pow]
    omega
  have hand : x &&& 0xff = x % 256 := Nat.and_pow_two_sub_one_eq_mod x 8
  by_cases hb : x &&& 0xff = 0
  · rw [hb, table0Entry_zero, Nat.shiftRight_eq_div_pow] at h1
    rw [hand] at hb
    have : x / 2 ^ 8 = 0 := h1.symm
    omega
  · have := table0Fast_top _ (and_255_lt x) hb
    rw [← table0Entry_eq, h1] at this
    omega

theorem shift8_inj {x y : Nat} (hx : x < 2 ^ 64) (hy : y < 2 ^ 64) (h : shift8 x = shift8 y) :
    x = y := by
  have h0 : shift8 (x ^^^ y) = 0 := by
    rw [shift8_xor, h, Nat.xor_self]
  exact Nat.xor_eq_zero.mp (shift8_eq_zero (Nat.xor_lt_two_pow hx hy) h0)

theorem shift8_iter_inj (n : Nat) {x y : Nat} (hx : x < 2 ^ 64) (hy : y < 2 ^ 64)
    (h : shift8^[n] x = shift8^[n] y) : x = y := by
  induction n generalizing x y with
  | zero => exact h
  | succ n ih =>
    rw [Function.iterate_succ_apply, Function.iterate_succ_apply] at h
    exact shift8_inj hx hy (ih (shift8_lt hx) (shift8_lt hy) h)

theorem xor_right_cancel {x y d : Nat} (h : x ^^^ d = y ^^^ d) : x = y := by
  have h0 : (x ^^^ d) ^^^ (y ^^^ d) = 0 := by rw [h, Nat.xor_self]
  rw [xor_cancel_mid] at h0
  exact Nat.xor_eq_zero.mp h0

theorem xor_left_cancel {x y c : Nat} (h : c ^^^ x = c ^^^ y) : x = y := by
  rw [Nat.xor_comm c x, Nat.xor_comm c y] at h
  exact xor_right_cancel h

theorem byteStep_inj {s1 s2 d : Nat} (h1 : s1 < 2 ^ 64) (h2 : s2 < 2 ^ 64) (hd : d < 256)
    (h : byteStep s1 d = byteStep s2 d) : s1 = s2 := by
  rw [byteStep_eq s1 hd, byteStep_eq s2 hd] at h
  have hd64 : d < 2 ^ 64 := Nat.lt_trans hd (by decide)
  exact xor_right_cancel
    (shift8_inj (Nat.xor_lt_two_pow h1 hd64) (Nat.xor_lt_two_pow h2 hd64) h)

theorem foldl_byteStep_inj (p : List Nat) (hp : ∀ b ∈ p, b < 256) {s1 s2 : Nat}
    (h1 : s1 < 2 ^ 64) (h2 : s2 < 2 ^ 64) (h : p.foldl byteStep s1 = p.foldl byteStep s2) :
    s1 = s2 := by
  induction p generalizing s1 s2 with
  | nil => exact h
  | cons d ds ih =>
    have hd : d < 256 := hp d (List.mem_cons_self _ _)
    rw [List.foldl_cons, List.foldl_cons] at h
    exact byteStep_inj h1 h2 hd
      (ih (fun b hb => hp b (List.mem_cons_of_mem _ hb)) (byteStep_lt h1 hd)
        (byteStep_lt h2 hd) h)

theorem Checksum_seed_inj (p : List Nat) (hp : ∀ b ∈ p, b < 256) {s1 s2 : Nat}
    (h1 : s1 < 2 ^ 64) (h2 : s2 < 2 ^ 64) (h : Checksum s1 p = Checksum s2 p) : s1 = s2 := by
  rw [Checksum_eq_foldl p hp s1 h1, Checksum_eq_foldl p hp s2 h2] at h
  exact foldl_byteStep_inj p hp h1 h2 h

theorem Checksum_seed_surj (p : List Nat) (hp : ∀ b ∈ p, b < 256) {t : Nat} (ht : t < 2 ^ 64) :
    ∃ s, s < 2 ^ 64 ∧ Checksum s p = t := by
  have hinj : Function.Injective
      (fun s : Fin (2 ^ 64) => (⟨Checksum s.1 p, Checksum_lt p hp s.2⟩ : Fin (2 ^ 64))) := by
    intro s1 s2 h
    exact Fin.ext (Checksum_seed_inj p hp s1.2 s2.2 (congrArg Fin.val h))
  obtain ⟨s, hs⟩ := (Finite.injective_iff_surjective.mp hinj) ⟨t, ht⟩
  exact ⟨s.1, s.2, congrArg Fin.val hs⟩

/-- Claim C18: the accumulator loses no information.  For bytes `p` the map
`seed ↦ Checksum seed p` is injective on 64-bit values, hence a bijection of
the 64-bit values: every 64-bit `t` is the checksum of `p` for some 64-bit
seed. -/
theorem Checksum_seed_bijective (p : List Nat) (s1 s2 t : Nat) (hp : ∀ b ∈ p, b < 256)
    (h1 : s1 < 2 ^ 64) (h2 : s2 < 2 ^ 64) (ht : t < 2 ^ 64) :
    (Checksum s1 p = Checksum s2 p → s1 = s2) ∧
      Checksum s1 p < 2 ^ 64 ∧
      ∃ s, s < 2 ^ 64 ∧ Checksum s p = t :=
  ⟨Checksum_seed_inj p hp h1 h2, Checksum_lt p hp h1, Checksum_seed_surj p hp ht⟩

/-- Witness of C18: the seeds 0 and `0xffffffffffffffff` on "123456789". -/
theorem Checksum_seed_bijective_witness :
    (∀ b ∈ [0x31, 0x32, 0x33, 0x34, 0x35, 0x36, 0x37, 0x38, 0x39], b < 256) ∧
      0 < 2 ^ 64 ∧ 0xffffffffffffffff < 2 ^ 64 ∧ 0xe9c6d914c4b8d9ca < 2 ^ 64 ∧
      ((Checksum 0 [0x31, 0x32, 0x33, 0x34, 0x35, 0x36, 0x37, 0x38, 0x39] =
          Checksum 0xffffffffffffffff [0x31, 0x32, 0x33, 0x34, 0x35, 0x36, 0x37, 0x38, 0x39] →
        0 = 0xffffffffffffffff) ∧
      Checksum 0 [0x31, 0x32, 0x33, 0x34, 0x35, 0x36, 0x37, 0x38, 0x39] < 2 ^ 64 ∧
      ∃ s, s < 2 ^ 64 ∧
        Checksum s [0x31, 0x32, 0x33, 0x34, 0x35, 0x36, 0x37, 0x38, 0x39]
          = 0xe9c6d914c4b8d9ca) :=
  ⟨by decide, by decide, by decide, by decide,
    Checksum_seed_bijective [0x31, 0x32, 0x33, 0x34, 0x35, 0x36, 0x37, 0x38, 0x39] 0
      0xffffffffffffffff 0xe9c6d914c4b8d9ca (by decide) (by decide) (by decide) (by decide)⟩

/-- Claim C19: leading zero bytes are invisible with seed 0.  For every `n`
and bytes `p`, `Checksum 0 (n zero bytes ++ p) = Checksum 0 p`; the checksum
of `n` zero bytes with seed 0 is 0; and `table[k][0] = 0` for `k` in `0..7`. -/
theorem Checksum_leading_zeros (n : Nat) (p : List Nat) (hp : ∀ b ∈ p, b < 256) :
    Checksum 0 (List.replicate n 0 ++ p) = Checksum 0 p ∧
      Checksum 0 (List.replicate n 0) = 0 ∧
      ∀ k < 8, get2 table k 0 = 0 := by
  have hz : Checksum 0 (List.replicate n 0) = 0 := by
    rw [Checksum_eq_foldl _ (replicate_zero_bytes n) 0 (by decide)]
    exact foldl_byteStep_zeros n
  refine ⟨?_, hz, fun k hk => table_zero hk⟩
  rw [← Checksum_append _ p (replicate_zero_bytes n) hp 0 (by decide), hz]

/-- Witness of C19: nine zero bytes before "12". -/
theorem Checksum_leading_zeros_witness :
    (∀ b ∈ [0x31, 0x32], b < 256) ∧
      Checksum 0 (List.replicate 9 0 ++ [0x31, 0x32]) = Checksum 0 [0x31, 0x32] ∧
      Checksum 0 (List.replicate 9 0) = 0 ∧
      ∀ k < 8, get2 table k 0 = 0 :=
  ⟨by decide, Checksum_leading_zeros 9 [0x31, 0x32] (by decide)⟩

/-! ## Bursts -/

theorem decodeLE_inj : ∀ (p q : List Nat), (∀ b ∈ p, b < 256) → (∀ b ∈ q, b < 256) →
    p.length = q.length → decodeLE p = decodeLE q → p = q
  | [], [], _, _, _, _ => rfl
  | [], _ :: _, _, _, h, _ => by simp at h
  | _ :: _, [], _, _, h, _ => by simp at h
  | d :: ds, e :: es, hp, hq, hl, h => by
    have hd : d < 256 := hp d (List.mem_cons_self _ _)
    have he : e < 256 := hq e (List.mem_cons_self _ _)
    simp only [decodeLE] at h
    have h1 : d = e := by omega
    have h2 : decodeLE ds = decodeLE es := by omega
    rw [h1, decodeLE_inj ds es (fun b hb => hp b (List.mem_cons_of_mem _ hb))
      (fun b hb => hq b (List.mem_cons_of_mem _ hb)) (by simpa using hl) h2]

/-- Two different blocks of at most 8 bytes, of the same length, folded from
the same 64-bit accumulator give different accumulators. -/
theorem foldl_byteStep_block_inj {c : Nat} (hc : c < 2 ^ 64) (p q : List Nat)
    (hp : ∀ b ∈ p, b < 256) (hq : ∀ b ∈ q, b < 256) (hl : p.length = q.length)
    (h8 : p.length ≤ 8) (h : p.foldl byteStep c = q.foldl byteStep c) : p = q := by
  have hbound : ∀ r : List Nat, (∀ b ∈ r, b < 256) → r.length ≤ 8 → leWord r < 2 ^ 64 := by
    intro r hr hr8
    exact Nat.lt_of_lt_of_le (leWord_lt r hr)
      (Nat.pow_le_pow_right (Nat.succ_pos 1) (by omega))
  rw [foldl_byteStep p hp, foldl_byteStep q hq, ← hl] at h
  have hx := shift8_iter_inj _ (Nat.xor_lt_two_pow hc (hbound p hp h8))
    (Nat.xor_lt_two_pow hc (hbound q hq (hl ▸ h8))) h
  have hw : leWord p = leWord q := xor_left_cancel hx
  rw [← decodeLE_eq_leWord p hp, ← decodeLE_eq_leWord q hq] at hw
  exact decodeLE_inj p q hp hq hl hw

/-- A burst confined to 8 consecutive bytes changes the checksum. -/
theorem burst_ne (seed : Nat) (p q : List Nat) (i : Nat) (hs : seed < 2 ^ 64)
    (hp : ∀ b ∈ p, b < 256) (hq : ∀ b ∈ q, b < 256) (hl : p.length = q.length)
    (hne : p ≠ q) (hout : ∀ j, (j < i ∨ i + 8 ≤ j) → p[j]? = q[j]?) :
    Checksum seed p ≠ Checksum seed q := by
  intro h
  apply hne
  have h1 : p.take i = q.take i := by
    apply List.ext_getElem?
    intro m
    rw [List.getElem?_take, List.getElem?_take]
    by_cases hm : m < i
    · simp only [hm, if_true]
      exact hout m (Or.inl hm)
    · simp only [hm, if_false]
  have h3 : (p.drop i).drop 8 = (q.drop i).drop 8 := by
    apply List.ext_getElem?
    intro m
    rw [List.getElem?_drop, List.getElem?_drop, List.getElem?_drop, List.getElem?_drop]
    exact hout _ (Or.inr (by omega))
  have hp1 : ∀ b ∈ p.take i, b < 256 := fun b hb => hp b (List.mem_of_mem_take hb)
  have hp2 : ∀ b ∈ (p.drop i).take 8, b < 256 :=
    fun b hb => hp b (List.mem_of_mem_drop (List.mem_of_mem_take hb))
  have hq2 : ∀ b ∈ (q.drop i).take 8, b < 256 :=
    fun b hb => hq b (List.mem_of_mem_drop (List.mem_of_mem_take hb))
  have hp3 : ∀ b ∈ (p.drop i).drop 8, b < 256 :=
    fun b hb => hp b (List.mem_of_mem_drop (List.mem_of_mem_drop hb))
  have hc : (p.take i).foldl byteStep seed < 2 ^ 64 := foldl_byteStep_lt _ hp1 hs
  have hsplit : ∀ r : List Nat, r = r.take i ++ ((r.drop i).take 8 ++ (r.drop i).drop 8) := by
    intro r
    rw [List.take_append_drop, List.take_append_drop]
  rw [Checksum_eq_foldl p hp seed hs, Checksum_eq_foldl q hq seed hs, hsplit p, hsplit q,
    List.foldl_append, List.foldl_append, List.foldl_append, List.foldl_append, ← h1, ← h3] at h
  have h2 := foldl_byteStep_inj _ hp3 (foldl_byteStep_lt _ hp2 hc) (foldl_byteStep_lt _ hq2 hc) h
  have hl2 : ((p.drop i).take 8).length = ((q.drop i).take 8).length := by
    rw [List.length_take, List.length_take, List.length_drop, List.length_drop, hl]
  have hmid := foldl_byteStep_block_inj hc _ _ hp2 hq2 hl2
    (by rw [List.length_take]; exact Nat.min_le_left _ _) h2
  rw [hsplit p, hsplit q, h1, h3, hmid]

/-- Claim C17: burst errors of up to 64 bits are detected.  For a 64-bit seed
and two different byte sequences `p`, `q` of equal length that agree at every
position outside the window `i, ..., i + 7`, the checksums differ; in
particular changing the single byte at position `j` of `p` changes the
checksum. -/
theorem Checksum_burst (seed : Nat) (p q : List Nat) (i : Nat) (hs : seed < 2 ^ 64)
    (hp : ∀ b ∈ p, b < 256) (hq : ∀ b ∈ q, b < 256) (hl : p.length = q.length)
    (hne : p ≠ q) (hout : ∀ j, (j < i ∨ i + 8 ≤ j) → p[j]? = q[j]?) :
    Checksum seed p ≠ Checksum seed q ∧
      ∀ j y, j < p.length → y < 256 → p[j]? ≠ some y →
        Checksum seed p ≠ Checksum seed (p.set j y) := by
  refine ⟨burst_ne seed p q i hs hp hq hl hne hout, fun j y hj hy hjy => ?_⟩
  have hset : ∀ b ∈ p.set j y, b < 256 := by
    intro b hb
    rcases List.mem_or_eq_of_mem_set hb with h | h
    · exact hp b h
    · rw [h]
      exact hy
  apply burst_ne seed p (p.set j y) j hs hp hset (List.length_set ..).symm
  · intro h
    apply hjy
    have : (p.set j y)[j]? = some y := by
      rw [List.getElem?_set_self hj]
    rw [← h] at this
    exact this
  · intro m hm
    rw [List.getElem?_set_ne (by omega)]

/-- Witness of C17: twelve bytes, changed at the positions 2 and 9. -/
theorem Checksum_burst_witness :
    7 < 2 ^ 64 ∧ (∀ b ∈ [1, 2, 3, 4, 5, 6, 7, 8, 9, 10, 11, 12], b < 256) ∧
      (∀ b ∈ [1, 2, 0, 4, 5, 6, 7, 8, 9, 255, 11, 12], b < 256) ∧
      [1, 2, 3, 4, 5, 6, 7, 8, 9, 10, 11, 12].length =
        [1, 2, 0, 4, 5, 6, 7, 8, 9, 255, 11, 12].length ∧
      [1, 2, 3, 4, 5, 6, 7, 8, 9, 10, 11, 12] ≠ [1, 2, 0, 4, 5, 6, 7, 8, 9, 255, 11, 12] ∧
      (∀ j, (j < 2 ∨ 2 + 8 ≤ j) →
        [1, 2, 3, 4, 5, 6, 7, 8, 9, 10, 11, 12][j]? =
          [1, 2, 0, 4, 5, 6, 7, 8, 9, 255, 11, 12][j]?) ∧
      (Checksum 7 [1, 2, 3, 4, 5, 6, 7, 8, 9, 10, 11, 12] ≠
          Checksum 7 [1, 2, 0, 4, 5, 6, 7, 8, 9, 255, 11, 12] ∧
        ∀ j y, j < [1, 2, 3, 4, 5, 6, 7, 8, 9, 10, 11, 12].length → y < 256 →
          [1, 2, 3, 4, 5, 6, 7, 8, 9, 10, 11, 12][j]? ≠ some y →
          Checksum 7 [1, 2, 3, 4, 5, 6, 7, 8, 9, 10, 11, 12] ≠
            Checksum 7 ([1, 2, 3, 4, 5, 6, 7, 8, 9, 10, 11, 12].set j y)) :=
  have hout : ∀ j, (j < 2 ∨ 2 + 8 ≤ j) →
      [1, 2, 3, 4, 5, 6, 7, 8, 9, 10, 11, 12][j]? =
        [1, 2, 0, 4, 5, 6, 7, 8, 9, 255, 11, 12][j]? := by
    intro j hj
    rcases hj with h | h
    · interval_cases j <;> rfl
    · obtain ⟨m, rfl⟩ : ∃ m, j = m + 10 := ⟨j - 10, by omega⟩
      rcases m with _ | _ | m
      · rfl
      · rfl
      · rfl
  ⟨by decide, by decide, by decide, by decide, by decide, hout,
    Checksum_burst 7 [1, 2, 3, 4, 5, 6, 7, 8, 9, 10, 11, 12]
      [1, 2, 0, 4, 5, 6, 7, 8, 9, 255, 11, 12] 2 (by decide) (by decide) (by decide)
      (by decide) (by decide) hout⟩

/-! ## Table 0 -/

theorem table0_get {c : Nat} (hc : c < 256) : get2 table 0 c = table0Entry c :=
  makeTable_get (by decide : 0 < 8) hc

theorem table0Fast_reflTable : ∀ c < 256, table0Fast c = reflTable c 8 := by decide!

theorem bitLoop8_specBits : ∀ c < 256, bitLoop8 c 0 = specBits c 8 := by decide!

theorem bitLoopJs_step {j : Nat} (h : j &&& 0xff ≠ 0) :
    bitLoopJs j = j :: bitLoopJs ((j <<< 1) % 256) := by
  rw [bitLoopJs, if_pos h]

theorem bitLoopJs_stop {j : Nat} (h : j &&& 0xff = 0) : bitLoopJs j = [] := by
  rw [bitLoopJs, if_neg (by simp [h])]

theorem bitLoopJs_one : bitLoopJs 1 = [1, 2, 4, 8, 16, 32, 64, 128] := by
  rw [bitLoopJs_step (by decide : 1 &&& 0xff ≠ 0)]
  rw [show (1 <<< 1) % 256 = 2 from rfl, bitLoopJs_step (by decide : 2 &&& 0xff ≠ 0)]
  rw [show (2 <<< 1) % 256 = 4 from rfl, bitLoopJs_step (by decide : 4 &&& 0xff ≠ 0)]
  rw [show (4 <<< 1) % 256 = 8 from rfl, bitLoopJs_step (by decide : 8 &&& 0xff ≠ 0)]
  rw [show (8 <<< 1) % 256 = 16 from rfl, bitLoopJs_step (by decide : 16 &&& 0xff ≠ 0)]
  rw [show (16 <<< 1) % 256 = 32 from rfl, bitLoopJs_step (by decide : 32 &&& 0xff ≠ 0)]
  rw [show (32 <<< 1) % 256 = 64 from rfl, bitLoopJs_step (by decide : 64 &&& 0xff ≠ 0)]
  rw [show (64 <<< 1) % 256 = 128 from rfl, bitLoopJs_step (by decide : 128 &&& 0xff ≠ 0)]
  rw [show (128 <<< 1) % 256 = 0 from rfl, bitLoopJs_stop (by decide : 0 &&& 0xff = 0)]

theorem testBit_revBits (v : Nat) : ∀ n, n ≤ 64 → ∀ m,
    (revBits v n).testBit m = (decide (m < 64 ∧ 63 - m < n) && v.testBit (63 - m)) := by
  intro n
  induction n with
  | zero =>
    intro _ m
    simp [revBits]
  | succ n ih =>
    intro hn m
    have hbit : (if v.testBit n then 2 ^ (63 - n) else 0).testBit m =
        (v.testBit n && decide (63 - n = m)) := by
      cases v.testBit n
      · simp
      · simp [Nat.testBit_two_pow]
    rw [revBits, Nat.testBit_or, ih (by omega) m, hbit]
    by_cases h1 : 63 - n = m
    · have e : 63 - m = n := by omega
      have c1 : ¬ (m < 64 ∧ 63 - m < n) := by omega
      have c2 : m < 64 ∧ 63 - m < n + 1 := by omega
      simp [h1, e, c1, c2]
    · by_cases h2 : m < 64 ∧ 63 - m < n
      · have c2 : m < 64 ∧ 63 - m < n + 1 := by omega
        simp [h1, h2, c2]
      · have c2 : ¬ (m < 64 ∧ 63 - m < n + 1) := by omega
        simp [h1, h2, c2]

theorem testBit_rev64 (v m : Nat) :
    (rev64 v).testBit m = (decide (m < 64) && v.testBit (63 - m)) := by
  rw [rev64, testBit_revBits v 64 (Nat.le_refl _) m]
  by_cases h : m < 64
  · have : m < 64 ∧ 63 - m < 64 := by omega
    simp [h, this]
  · have : ¬ (m < 64 ∧ 63 - m < 64) := by omega
    simp [h, this]

theorem revLoop_succ (n : Nat) (s : Nat × Nat) : revLoop (n + 1) s = revStep (revLoop n s) := by
  induction n generalizing s with
  | zero => rfl
  | succ n ih =>
    rw [revLoop, ih (revStep s)]
    rfl

theorem testBit_and_one (x m : Nat) : (x &&& 1).testBit m = (decide (m = 0) && x.testBit 0) := by
  rw [Nat.testBit_and, show (1 : Nat) = 2 ^ 0 from rfl, Nat.testBit_two_pow]
  by_cases h : m = 0
  · subst h
    simp
  · have : ¬ (0 = m) := fun h' => h h'.symm
    simp [h, this]

/-- The state of the loop `for j := 1; j < 64; j++` after `n` iterations
started on `(v, v & 0x01)`: `v` shifted by `n`, and the bits `0..n` of `v` in
reverse order. -/
theorem revLoop_spec (v : Nat) : ∀ n, n ≤ 63 →
    (revLoop n (v, v &&& 0x01)).1 = v >>> n ∧
      ∀ m, (revLoop n (v, v &&& 0x01)).2.testBit m = (decide (m ≤ n) && v.testBit (n - m)) := by
  intro n
  induction n with
  | zero =>
    intro _
    refine ⟨rfl, fun m => ?_⟩
    show (v &&& 1).testBit m = _
    rw [testBit_and_one]
    by_cases h : m = 0
    · subst h
      simp
    · simp [h]
  | succ n ih =>
    intro hn
    obtain ⟨h1, h2⟩ := ih (by omega)
    rw [revLoop_succ]
    have hfst : (revStep (revLoop n (v, v &&& 0x01))).1 = v >>> (n + 1) := by
      show (revLoop n (v, v &&& 0x01)).1 >>> 1 = _
      rw [h1, Nat.shiftRight_add]
    refine ⟨hfst, fun m => ?_⟩
    show ((((revLoop n (v, v &&& 0x01)).2 <<< 1) % 2 ^ 64) |||
      (((revLoop n (v, v &&& 0x01)).1 >>> 1) &&& 1)).testBit m = _
    rw [Nat.testBit_or, Nat.testBit_mod_two_pow, Nat.testBit_shiftLeft, h2, testBit_and_one, h1,
      ← Nat.shiftRight_add, Nat.testBit_shiftRight, Nat.add_zero]
    by_cases hm : m = 0
    · subst hm
      simp
    · have e : n - (m - 1) = n + 1 - m := by omega
      by_cases hle : m ≤ n + 1
      · have c1 : m < 64 := by omega
        have c2 : m ≥ 1 := by omega
        have c3 : m - 1 ≤ n := by omega
        simp [hm, e, hle, c1, c2, c3]
      · have c3 : ¬ (m - 1 ≤ n) := by omega
        simp [hm, hle, c3]

/-- The 63-step shift loop of `makeTable` reverses the 64 bits. -/
theorem revLoop_rev64 (v : Nat) : (revLoop 63 (v, v &&& 0x01)).2 = rev64 v := by
  apply Nat.eq_of_testBit_eq
  intro m
  rw [(revLoop_spec v 63 (Nat.le_refl _)).2 m, testBit_rev64]
  by_cases h : m < 64
  · have : m ≤ 63 := by omega
    simp [h, this]
  · have : ¬ m ≤ 63 := by omega
    simp [h, this]

/-- Claim C13: table 0 is the standard reflected CRC table.  For every byte
`c`, `table[0][c]` built by `makeTable` is `r_8` of the reflected algorithm on
`0x95ac9329ac4bc9b5`, which is the reversal of the 64 bits of the polynomial
`0xad93d23594c935a9`; no final reversal is applied to `r_8`. -/
theorem table0_reflected (c : Nat) (hc : c < 256) :
    get2 makeTable 0 c = reflTable c 8 ∧ rev64 poly = 0x95ac9329ac4bc9b5 := by
  constructor
  · rw [makeTable_get (by decide : 0 < 8) hc, Function.iterate_zero, id_eq, table0Entry_eq]
    exact table0Fast_reflTable c hc
  · decide!

/-- Witness of C13: the entry of the byte `0x80`. -/
theorem table0_reflected_witness :
    0x80 < 256 ∧ get2 makeTable 0 0x80 = reflTable 0x80 8 ∧
      rev64 poly = 0x95ac9329ac4bc9b5 :=
  ⟨by decide, table0_reflected 0x80 (by decide)⟩

/-- Claim C14: table 0 follows the steps of the spec.  For every byte `c`,
`table[0][c] = rev64 (v_8)` with `v_k` the register of the spec (`specBits`);
the `uint8` loop of the code runs for `j = 1, 2, 4, ..., 128`, 8 times, and
leaves `v_8`; and the 63-step shift loop computes `rev64` (bit `i` to bit
`63 - i`). -/
theorem table0_spec_steps (c v : Nat) (hc : c < 256) :
    get2 makeTable 0 c = rev64 (specBits c 8) ∧
      bitLoopJs 0x01 = [1, 2, 4, 8, 16, 32, 64, 128] ∧
      (bitLoopJs 0x01).length = 8 ∧
      bitLoop c 0x01 0 = specBits c 8 ∧
      (revLoop 63 (v, v &&& 0x01)).2 = rev64 v ∧
      (∀ i < 64, (rev64 v).testBit (63 - i) = v.testBit i) ∧
      rev64 v < 2 ^ 64 := by
  have hloop : bitLoop c 0x01 0 = specBits c 8 := by
    rw [bitLoop_one]
    exact bitLoop8_specBits c hc
  refine ⟨?_, bitLoopJs_one, ?_, hloop, revLoop_rev64 v, fun i hi => ?_, ?_⟩
  · rw [makeTable_get (by decide : 0 < 8) hc, Function.iterate_zero, id_eq]
    unfold table0Entry
    simp only [Nat.mod_eq_of_lt hc, hloop, revLoop_rev64, Nat.xor_zero]
  · rw [bitLoopJs_one]
    rfl
  · rw [testBit_rev64]
    have h1 : 63 - i < 64 := by omega
    have h2 : 63 - (63 - i) = i := by omega
    simp [h1, h2]
  · apply Nat.lt_of_testBit 64
    · rw [testBit_rev64]
      simp
    · exact Nat.testBit_two_pow_self
    · intro j hj
      rw [testBit_rev64, Nat.testBit_two_pow]
      have h1 : ¬ j < 64 := by omega
      have h2 : ¬ 64 = j := by omega
      simp [h1, h2]

/-- Witness of C14: the entry of the byte `0x01`, and the reversal of 6. -/
theorem table0_spec_steps_witness :
    0x01 < 256 ∧ (get2 makeTable 0 0x01 = rev64 (specBits 0x01 8) ∧
      bitLoopJs 0x01 = [1, 2, 4, 8, 16, 32, 64, 128] ∧
      (bitLoopJs 0x01).length = 8 ∧
      bitLoop 0x01 0x01 0 = specBits 0x01 8 ∧
      (revLoop 63 (6, 6 &&& 0x01)).2 = rev64 6 ∧
      (∀ i < 64, (rev64 6).testBit (63 - i) = Nat.testBit 6 i) ∧
      rev64 6 < 2 ^ 64) :=
  ⟨by decide, table0_spec_steps 0x01 6 (by decide)⟩

/-! ## Accesses are in range -/

theorem array_getElem?_get! {α : Type} [Inhabited α] (a : Array α) {i : Nat}
    (h : i < a.size) : a[i]? = some (a.get! i) := by
  rw [Array.get!_eq_get?, Array.get?_eq_getElem?, Array.getElem?_eq_getElem h]
  rfl

theorem list_getElem?_get! (p : List Nat) {i : Nat} (h : i < p.length) :
    p[i]? = some (p.get! i) := by
  rw [List.get!_eq_getElem!, getElem!_pos p i h, List.getElem?_eq_getElem h]

theorem get2Checked_eq {t : Array (Array Nat)} (h : TableWF t) {k i : Nat} (hk : k < 8)
    (hi : i < 256) : get2Checked t k i = some (get2 t k i) := by
  obtain ⟨h8, hrow⟩ := h
  unfold get2Checked get2
  rw [array_getElem?_get! t (by omega), Option.some_bind]
  exact array_getElem?_get! _ (by rw [hrow k hk]; exact hi)

theorem get2Checked_in_range {t : Array (Array Nat)} (h : TableWF t) {k i : Nat}
    (hne : get2Checked t k i ≠ none) : k < 8 ∧ i < 256 := by
  obtain ⟨h8, hrow⟩ := h
  by_cases hk : k < 8
  · refine ⟨hk, ?_⟩
    by_cases hi : i < 256
    · exact hi
    · exfalso
      apply hne
      unfold get2Checked
      rw [array_getElem?_get! t (by omega), Option.some_bind]
      exact Array.getElem?_eq_none_iff.mpr (by rw [hrow k hk]; omega)
  · exfalso
    apply hne
    unfold get2Checked
    rw [Array.getElem?_eq_none_iff.mpr (by omega)]
    rfl

theorem set2Checked_eq {t : Array (Array Nat)} (h : TableWF t) {k i : Nat} (hk : k < 8)
    (hi : i < 256) (v : Nat) : set2Checked t k i v = some (set2 t k i v) := by
  obtain ⟨h8, hrow⟩ := h
  unfold set2Checked set2
  rw [array_getElem?_get! t (by omega), Option.some_bind]
  simp only [hrow k hk, hi, if_true]

theorem sliceRowChecked_eq (i : Nat) (hi : i < 256) :
    ∀ (n j : Nat) (t : Array (Array Nat)) (v : Nat), TableWF t → 1 ≤ j → j + n = 8 →
      sliceRowChecked i n j (t, v) = some (sliceRow i n j (t, v)) := by
  intro n
  induction n with
  | zero =>
    intro j t v _ _ _
    rfl
  | succ n ih =>
    intro j t v hwf hj hjn
    simp only [sliceRowChecked, sliceRow, get2Checked_eq hwf (by decide : 0 < 8) (and_255_lt v),
      set2Checked_eq hwf (by omega : j < 8) hi, Option.some_bind]
    exact ih (j + 1) _ _ (set2_wf hwf _ _ _) (by omega) (by omega)

/-- A checked loop whose body never fails on states satisfying an invariant
is the unchecked loop. -/
theorem foldlM_eq_foldl {σ α : Type} (Inv : σ → Prop) (f : σ → α → σ) (g : σ → α → Option σ)
    (l : List α) (hstep : ∀ s, Inv s → ∀ x ∈ l, g s x = some (f s x) ∧ Inv (f s x)) :
    ∀ s, Inv s → l.foldlM g s = some (l.foldl f s) ∧ Inv (l.foldl f s) := by
  induction l with
  | nil =>
    intro s hs
    exact ⟨rfl, hs⟩
  | cons x xs ih =>
    intro s hs
    obtain ⟨h1, h2⟩ := hstep s hs x (List.mem_cons_self _ _)
    rw [List.foldlM_cons, h1, List.foldl_cons]
    exact ih (fun s' hs' y hy => hstep s' hs' y (List.mem_cons_of_mem _ hy)) (f s x) h2

theorem sliceRow_wf (i : Nat) (hi : i < 256) (t : Array (Array Nat)) (v : Nat)
    (hwf : TableWF t) : TableWF (sliceRow i 7 1 (t, v)).1 :=
  (sliceRow_spec i hi (fun y => get2 t 0 (y &&& 0xff) ^^^ (y >>> 8)) 7 1 t v hwf
    (Nat.le_refl 1) rfl (fun _ => rfl)).1

theorem mkArray_wf : TableWF (mkArray 8 (mkArray 256 0)) :=
  (loop1_spec 0 (Nat.zero_le _)).1

/-- No access of `makeTable` is out of range. -/
theorem makeTableChecked_eq : makeTableChecked = some makeTable := by
  have h1 := foldlM_eq_foldl TableWF (fun t i => set2 t 0 i (table0Entry i))
    (fun t i => set2Checked t 0 i (table0Entry i)) (List.range 256)
    (fun s hs x hx => ⟨set2Checked_eq hs (by decide) (List.mem_range.mp hx) _,
      set2_wf hs _ _ _⟩) _ mkArray_wf
  have h2 := foldlM_eq_foldl TableWF (fun t i => (sliceRow i 7 1 (t, get2 t 0 i)).1)
    (fun t i => (get2Checked t 0 i).bind fun v =>
      (sliceRowChecked i 7 1 (t, v)).map Prod.fst) (List.range 256)
    (fun s hs x hx => by
      have hx' : x < 256 := List.mem_range.mp hx
      refine ⟨?_, sliceRow_wf x hx' s _ hs⟩
      simp only [get2Checked_eq hs (by decide : 0 < 8) hx',
        sliceRowChecked_eq x hx' 7 1 s _ hs (Nat.le_refl 1) rfl, Option.map_some',
        Option.some_bind])
    _ h1.2
  unfold makeTableChecked makeTable
  rw [h1.1, Option.some_bind]
  exact h2.1

theorem table_wf : TableWF table :=
  (loop2_spec _ (loop1_spec 256 (Nat.le_refl _)).1
    (fun y => get2 ((List.range 256).foldl (fun t i => set2 t 0 i (table0Entry i))
      (mkArray 8 (mkArray 256 0))) 0 (y &&& 0xff) ^^^ (y >>> 8)) (fun _ => rfl) 256
    (Nat.le_refl _)).1

theorem word8Checked_eq {p : List Nat} (h : p.length > 8) : word8Checked p = some (word8 p) := by
  unfold word8Checked word8
  simp only [list_getElem?_get! p (by omega : 0 < p.length),
    list_getElem?_get! p (by omega : 1 < p.length), list_getElem?_get! p (by omega : 2 < p.length),
    list_getElem?_get! p (by omega : 3 < p.length), list_getElem?_get! p (by omega : 4 < p.length),
    list_getElem?_get! p (by omega : 5 < p.length), list_getElem?_get! p (by omega : 6 < p.length),
    list_getElem?_get! p (by omega : 7 < p.length), Option.some_bind]

theorem slice8Checked_eq {crc : Nat} (hc : crc < 2 ^ 64) :
    slice8Checked crc = some (slice8 crc) := by
  unfold slice8Checked slice8
  simp only [get2Checked_eq table_wf (by decide : 7 < 8) (and_255_lt _),
    get2Checked_eq table_wf (by decide : 6 < 8) (and_255_lt _),
    get2Checked_eq table_wf (by decide : 5 < 8) (and_255_lt _),
    get2Checked_eq table_wf (by decide : 4 < 8) (and_255_lt _),
    get2Checked_eq table_wf (by decide : 3 < 8) (and_255_lt _),
    get2Checked_eq table_wf (by decide : 2 < 8) (and_255_lt _),
    get2Checked_eq table_wf (by decide : 1 < 8) (and_255_lt _),
    get2Checked_eq table_wf (by decide : 0 < 8) (shiftRight56_lt hc), Option.some_bind]

theorem byteStepChecked_eq (crc : Nat) {v : Nat} (hv : v < 256) :
    byteStepChecked crc v = some (byteStep crc v) := by
  unfold byteStepChecked byteStep
  simp only [get2Checked_eq table_wf (by decide : 0 < 8)
    (Nat.xor_lt_two_pow (n := 8) (Nat.mod_lt crc (by decide)) hv), Option.some_bind]

theorem foldlM_byteStepChecked (p : List Nat) (hp : ∀ b ∈ p, b < 256) (crc : Nat) :
    p.foldlM byteStepChecked crc = some (p.foldl byteStep crc) :=
  (foldlM_eq_foldl (fun _ => True) byteStep byteStepChecked p
    (fun s _ x hx => ⟨byteStepChecked_eq s (hp x hx), trivial⟩) crc trivial).1

theorem ChecksumChecked_eq_aux (n : Nat) : ∀ (p : List Nat), p.length = n →
    (∀ b ∈ p, b < 256) → ∀ (crc : Nat), crc < 2 ^ 64 →
    ChecksumChecked crc p = some (Checksum crc p) := by
  induction n using Nat.strong_induction_on with
  | _ n ih =>
    intro p hn hp crc hc
    by_cases h : p.length > 8
    · have hw : word8 p < 2 ^ 64 := by
        rw [word8_eq p (by omega)]
        have := leWord_lt _ (take8_bytes hp)
        rwa [take8_length (by omega)] at this
      have hx : crc ^^^ word8 p < 2 ^ 64 := Nat.xor_lt_two_pow hc hw
      rw [ChecksumChecked, if_pos h, Checksum_long crc h]
      rw [word8Checked_eq h, Option.some_bind, slice8Checked_eq hx, Option.some_bind]
      exact ih (p.drop 8).length (by rw [List.length_drop]; omega) (p.drop 8) rfl
        (drop8_bytes hp) _ (slice8_lt hx)
    · rw [ChecksumChecked, if_neg h, Checksum_short crc h]
      exact foldlM_byteStepChecked p hp crc

/-- Claim C20: no access is out of range.  With every index into `p` and the
tables checked (`none` for an index out of range), `makeTable` returns its
table, and `Checksum` returns its value for every 64-bit `crc` and bytes `p`:
the table numbers are in `0..7`, the entry indices in `0..255` (also
`crc>>56` and `byte(crc)^v`), and `p[0]..p[7]` are read only when more than 8
bytes remain. -/
theorem Checksum_in_range (crc : Nat) (p : List Nat) (hc : crc < 2 ^ 64)
    (hp : ∀ b ∈ p, b < 256) :
    ChecksumChecked crc p = some (Checksum crc p) ∧
      makeTableChecked = some makeTable ∧
      (∀ v, v < 256 → byteStepChecked crc v = some (byteStep crc v)) ∧
      slice8Checked crc = some (slice8 crc) ∧
      crc >>> 56 < 256 ∧
      (p.length > 8 → word8Checked p = some (word8 p)) ∧
      (∀ k i, get2Checked table k i ≠ none → k < 8 ∧ i < 256) :=
  ⟨ChecksumChecked_eq_aux p.length p rfl hp crc hc, makeTableChecked_eq,
    fun _ hv => byteStepChecked_eq crc hv, slice8Checked_eq hc, shiftRight56_lt hc,
    fun h => word8Checked_eq h, fun _ _ h => get2Checked_in_range table_wf h⟩

/-- Witness of C20: seed `0xffffffffffffffff` on 17 bytes. -/
theorem Checksum_in_range_witness :
    0xffffffffffffffff < 2 ^ 64 ∧
      (∀ b ∈ [255, 0, 3, 4, 5, 6, 7, 8, 9, 10, 11, 12, 13, 14, 15, 16, 17], b < 256) ∧
      (ChecksumChecked 0xffffffffffffffff
          [255, 0, 3, 4, 5, 6, 7, 8, 9, 10, 11, 12, 13, 14, 15, 16, 17] =
        some (Checksum 0xffffffffffffffff
          [255, 0, 3, 4, 5, 6, 7, 8, 9, 10, 11, 12, 13, 14, 15, 16, 17]) ∧
      makeTableChecked = some makeTable ∧
      (∀ v, v < 256 →
        byteStepChecked 0xffffffffffffffff v = some (byteStep 0xffffffffffffffff v)) ∧
      slice8Checked 0xffffffffffffffff = some (slice8 0xffffffffffffffff) ∧
      0xffffffffffffffff >>> 56 < 256 ∧
      ([255, 0, 3, 4, 5, 6, 7, 8, 9, 10, 11, 12, 13, 14, 15, 16, 17].length > 8 →
        word8Checked [255, 0, 3, 4, 5, 6, 7, 8, 9, 10, 11, 12, 13, 14, 15, 16, 17] =
          some (word8 [255, 0, 3, 4, 5, 6, 7, 8, 9, 10, 11, 12, 13, 14, 15, 16, 17])) ∧
      (∀ k i, get2Checked table k i ≠ none → k < 8 ∧ i < 256)) :=
  ⟨by decide, by decide,
    Checksum_in_range 0xffffffffffffffff
      [255, 0, 3, 4, 5, 6, 7, 8, 9, 10, 11, 12, 13, 14, 15, 16, 17] (by decide) (by decide)⟩

end crc64
